import Mathlib

deriving instance DecidableEq for Except

/-!
# Verification of the `awsns` DNS reconciler

Shallow embedding of `main.go` of the `awsns` repository.

The program reconciles Route 53 DNS records under a configured suffix with
the set of running non-spot EC2 instances.  We embed the pure reconciliation
core of `run` (after the external queries have succeeded), the instance
snapshot builder `runningInstances`, and the label validator `valid`.

Modelling conventions:
* Go pointers (`*string`, `*int64`) become `Option`.
* Go's `map[string]*route53.Change` becomes an association list with
  map semantics (`mapInsert` overwrites the binding of an existing key);
  iteration order is modelled as insertion order (the program's behaviour
  does not depend on it).
* A nil-pointer dereference (panic) is modelled by the `Except Unit` monad:
  `.error ()` means the program crashes.
* The provider calls are elided: `run` receives the two snapshots (the zone
  record sets accumulated over every Route 53 page, and the instance list
  returned by `runningInstances`) as arguments, with an empty `invokerID`.
-/

namespace Awsns

/-- Byte/char-level suffix test, mirroring Go's `strings.HasSuffix s t`. -/
def strEndsWith (s t : String) : Bool := decide (t.data <:+ s.data)

/-- Char-level test mirroring Go's `strings.HasPrefix s t`. -/
def strStartsWith (s t : String) : Bool := decide (t.data <+: s.data)

/-- Go's `strings.TrimSuffix s "."`: drop one trailing dot if present. -/
def trimDot (s : String) : String :=
  if strEndsWith s "." then ⟨s.data.dropLast⟩ else s

/-- An EC2 tag (`ec2.Tag`): both fields are pointers in the source. -/
structure Tag where
  key : Option String
  value : Option String
deriving DecidableEq

/-- The fields of `ec2.Instance` that the program reads. -/
structure Instance where
  instanceId : Option String
  instanceLifecycle : Option String
  tags : List Tag
  publicDnsName : Option String
  publicIpAddress : Option String
deriving DecidableEq

/-- `route53.ResourceRecord`. -/
structure ResourceRecord where
  value : Option String
deriving DecidableEq

/-- The fields of `route53.ResourceRecordSet` that the program reads/writes. -/
structure ResourceRecordSet where
  name : Option String
  type : Option String
  ttl : Option Int
  resourceRecords : List ResourceRecord
deriving DecidableEq

/-- `route53.Change`: an action (`"UPSERT"`/`"DELETE"`) plus a record set. -/
structure Change where
  action : String
  rrset : ResourceRecordSet
deriving DecidableEq

/-- `ec2.Reservation` (only its instance list is read). -/
structure Reservation where
  instances : List Instance
deriving DecidableEq

/-- `ec2.DescribeInstancesOutput`: one page of the provider's response.
`nextToken` is present when further pages exist; the program never reads it. -/
structure DescribeInstancesOutput where
  reservations : List Reservation
  nextToken : Option String
deriving DecidableEq

/-- `valid` from `main.go`: a name is valid iff it is non-empty and every
rune is an ASCII letter, digit or hyphen. -/
def validChar (r : Char) : Bool :=
  if 'a' ≤ r ∧ r ≤ 'z' then true
  else if 'A' ≤ r ∧ r ≤ 'Z' then true
  else if '0' ≤ r ∧ r ≤ '9' then true
  else if r = '-' then true
  else false

/-- `valid(name)` from `main.go`. -/
def valid (name : String) : Bool :=
  if name = "" then false
  else name.data.all validChar

/-- The tag scan at the top of the instance loop of `run`:
`for _, tag := range inst.Tags { if *tag.Key == "Name" { name = *tag.Value; break } }`.
Dereferencing a nil `Key` (or the nil `Value` of the first `"Name"` tag)
panics, modelled by `.error ()`.  With no `"Name"` tag, `name` keeps its
zero value `""`. -/
def extractName : List Tag → Except Unit String
  | [] => .ok ""
  | t :: ts =>
    match t.key with
    | none => .error ()
    | some k =>
      if k = "Name" then
        match t.value with
        | none => .error ()
        | some v => .ok v
      else extractName ts

/-- Association-list update with Go-map semantics: overwrite the binding of
an existing key, otherwise append. -/
def mapInsert (m : List (String × Change)) (k : String) (v : Change) :
    List (String × Change) :=
  if m.any (fun p => decide (p.1 = k)) then
    m.map (fun p => if p.1 = k then (k, v) else p)
  else m ++ [(k, v)]

/-- Go's `delete(m, k)`. -/
def mapErase (m : List (String × Change)) (k : String) : List (String × Change) :=
  m.filter (fun p => decide (¬p.1 = k))

/-- The body of the `ListResourceRecordSetsPages` callback of `run`, for one
record set: produce the candidate `DELETE` change, or `none` when the record
is skipped (missing name, name equal to the dot-terminated suffix, name not
ending in it, missing type, or type other than `A`/`CNAME`). -/
def deleteCandidate (suffix : String) (rr : ResourceRecordSet) :
    Option (String × Change) :=
  let suffixDot := suffix ++ "."
  match rr.name with
  | none => none
  | some nm =>
    if nm = suffixDot then none
    else if ¬strEndsWith nm suffixDot then none
    else
      match rr.type with
      | none => none
      | some t =>
        if t ≠ "A" ∧ t ≠ "CNAME" then none
        else
          let name := trimDot nm
          some (name, ⟨"DELETE", ⟨some name, some t, rr.ttl, rr.resourceRecords⟩⟩)

/-- The `toRemove` map after the zone listing loop of `run`, over the record
sets accumulated from every page. -/
def buildToRemove (suffix : String) (zone : List ResourceRecordSet) :
    List (String × Change) :=
  zone.foldl
    (fun m rr =>
      match deleteCandidate suffix rr with
      | none => m
      | some (k, v) => mapInsert m k v)
    []

/-- Go's `p != nil && *p != ""` for an optional string. -/
def hasVal : Option String → Bool
  | some s => decide (s ≠ "")
  | none => false

/-- The `switch` of the instance loop of `run`: the UPSERT change emitted for
an instance with (already validated) label `name`, or `none` when the
instance has neither a non-empty public DNS name nor a non-empty public IP
address (the `default: continue` branch).  In the emitted record,
`value := inst.publicDnsName` is the `some`-wrapped dereference
`aws.String(*inst.PublicDnsName)` of the source (guarded by `hasVal`). -/
def instChange (suffix name : String) (inst : Instance) : Option Change :=
  if hasVal inst.publicDnsName then
    some ⟨"UPSERT", ⟨some (name ++ suffix), some "CNAME", some 60,
      [⟨inst.publicDnsName⟩]⟩⟩
  else if hasVal inst.publicIpAddress then
    some ⟨"UPSERT", ⟨some (name ++ suffix), some "A", some 60,
      [⟨inst.publicIpAddress⟩]⟩⟩
  else none

/-- The instance loop of `run`: threads the `toRemove` map and the `changes`
slice through the instances.  Crashes (`.error ()`) when the tag scan does. -/
def processInstances (suffix : String) :
    List Instance → List (String × Change) → List Change →
    Except Unit (List (String × Change) × List Change)
  | [], toRemove, changes => .ok (toRemove, changes)
  | inst :: rest, toRemove, changes =>
    match extractName inst.tags with
    | .error e => .error e
    | .ok name =>
      if valid name then
        match instChange suffix name inst with
        | some ch =>
          processInstances suffix rest (mapErase toRemove (name ++ suffix)) (changes ++ [ch])
        | none => processInstances suffix rest toRemove changes
      else processInstances suffix rest toRemove changes

/-- Outcome of one invocation of the reconciliation core of `run`. -/
inductive RunOutcome where
  /-- The suffix failed the up-front validation; no provider call is made. -/
  | configError (msg : String)
  /-- A nil-pointer dereference: the process crashes. -/
  | panic
  /-- `run` returns an error after the instance loop without mutating the zone
  (the `"no changes to apply"` safety guard). -/
  | failure (msg : String)
  /-- `run` submits this change batch as one `ChangeResourceRecordSets` call. -/
  | batch (changes : List Change)
deriving DecidableEq

/-- The batch submitted to the zone, if any: only a `batch` outcome mutates
the zone. -/
def submitted : RunOutcome → Option (List Change)
  | .batch b => some b
  | _ => none

/-- The reconciliation core of `run` from `main.go`, given the two snapshots
(see the module docstring).  Mirrors, in order: the suffix validation, the
zone listing loop (`buildToRemove`), the instance loop (`processInstances`),
the zero-changes guard, and the final concatenation of the UPSERTs with the
remaining deletions. -/
def run (suffix : String) (instances : List Instance)
    (zone : List ResourceRecordSet) : RunOutcome :=
  if suffix = "." ∨ ¬strStartsWith suffix "." then
    .configError "invalid suffix, must start with dot, like '.example.com'"
  else
    match processInstances suffix instances (buildToRemove suffix zone) [] with
    | .error _ => .panic
    | .ok (toRemove, changes) =>
      if changes.length = 0 then .failure "no changes to apply"
      else .batch (changes ++ toRemove.map Prod.snd)

/-- `runningInstances` from `main.go`.  The single `DescribeInstances` call
is modelled as returning the first page of the provider's paginated data
(`.error ()` when the provider call fails); the program never requests
further pages.  The response is assumed to satisfy the
`instance-state-name = running` filter sent with the request. -/
def runningInstances (pages : List DescribeInstancesOutput) :
    Except Unit (List Instance) :=
  match pages with
  | [] => .error ()
  | resp :: _ =>
    .ok (resp.reservations.foldl
      (fun out r =>
        r.instances.foldl
          (fun out inst =>
            if inst.instanceLifecycle ≠ none then out else out ++ [inst])
          out)
      [])

/-! ## Derived descriptions of the instance loop

`instUpsert` performs, for a single instance, exactly the work of one
iteration of the instance loop: tag scan, validation, change construction.
`upsertChanges`/`upsertKeys` collect the emitted changes and their
fully-qualified names; `finalRemove` is the `toRemove` map as it stands
after the loop.  The lemma `processInstances_ok` proves that the loop
computes these. -/

/-- One iteration of the instance loop of `run`, in isolation:
`.error ()` = crash, `.ok none` = instance skipped, `.ok (some ch)` =
`ch` appended to `changes` (and its name removed from `toRemove`). -/
def instUpsert (suffix : String) (inst : Instance) : Except Unit (Option Change) :=
  match extractName inst.tags with
  | .error e => .error e
  | .ok name => if valid name then .ok (instChange suffix name inst) else .ok none

/-- The UPSERT changes emitted by the instance loop, in processing order. -/
def upsertChanges (suffix : String) (l : List Instance) : List Change :=
  l.filterMap (fun i =>
    match instUpsert suffix i with
    | .ok (some ch) => some ch
    | _ => none)

/-- The fully-qualified names (`label ++ suffix`) of the emitted UPSERTs:
exactly the keys the loop removes from `toRemove`. -/
def upsertKeys (suffix : String) (l : List Instance) : List String :=
  l.filterMap (fun i =>
    match instUpsert suffix i with
    | .ok (some ch) => ch.rrset.name
    | _ => none)

/-- The `toRemove` map once the instance loop has finished. -/
def finalRemove (suffix : String) (l : List Instance)
    (zone : List ResourceRecordSet) : List (String × Change) :=
  (buildToRemove suffix zone).filter (fun p => decide (¬p.1 ∈ upsertKeys suffix l))

/-! ## Spec-side and environment definitions -/

/-- The instances enumerated by the loop of `runningInstances` before the
lifecycle check: the instances of every reservation of the (single) response
it consumes, in order. -/
def queriedInstances (pages : List DescribeInstancesOutput) : List Instance :=
  match pages with
  | [] => []
  | resp :: _ => (resp.reservations.map Reservation.instances).flatten

/-- All instances the provider reports across every page of its paginated
response (what the spec calls "all matching instances"). -/
def allPagesInstances (pages : List DescribeInstancesOutput) : List Instance :=
  (pages.map (fun p => (p.reservations.map Reservation.instances).flatten)).flatten

/-- Modelled from the spec: the DNS provider normalises record names to
fully-qualified, separator-terminated form (the zone listing returns names
with a trailing dot; a change may name a record without it). -/
def fqdn (s : String) : String :=
  if strEndsWith s "." then s else s ++ "."

/-- Modelled from the spec: a change addresses the record set with the same
normalised fully-qualified name and the same kind. -/
def matchesChange (ch : Change) (rr : ResourceRecordSet) : Bool :=
  match ch.rrset.name, ch.rrset.type with
  | some nm, some ty => decide (rr.name = some (fqdn nm)) && decide (rr.type = some ty)
  | _, _ => false

/-- Modelled from the spec: the record stored by an UPSERT — the change's
record set with its name normalised. -/
def written (ch : Change) : ResourceRecordSet :=
  { ch.rrset with name := ch.rrset.name.map fqdn }

/-- Modelled from the spec: applying one change of a batch to the zone
(Route 53 `ChangeResourceRecordSets` semantics, external to the repository):
an UPSERT replaces the addressed record set, or creates it if absent; a
DELETE removes it. -/
def applyChange (zone : List ResourceRecordSet) (ch : Change) : List ResourceRecordSet :=
  match ch.rrset.name, ch.rrset.type with
  | some _, some _ =>
    if ch.action = "UPSERT" then
      if zone.any (matchesChange ch) then
        zone.map (fun rr => if matchesChange ch rr then written ch else rr)
      else zone ++ [written ch]
    else if ch.action = "DELETE" then
      zone.filter (fun rr => !matchesChange ch rr)
    else zone
  | _, _ => zone

/-- Modelled from the spec: applying a whole change batch, in order. -/
def applyBatch (zone : List ResourceRecordSet) (chs : List Change) : List ResourceRecordSet :=
  chs.foldl applyChange zone

/-! ## Concrete fixtures used by witnesses and counterexamples -/

/-- A running on-demand instance labelled `web` with a public hostname. -/
def webDns : Instance :=
  ⟨some "i-1", none, [⟨some "Name", some "web"⟩], some "web.host.example", none⟩

/-- A second instance also labelled `web`, with a different hostname. -/
def webDns2 : Instance :=
  ⟨some "i-2", none, [⟨some "Name", some "web"⟩], some "other.host.example", none⟩

/-- A running on-demand instance labelled `api` with only a public address. -/
def apiAddr : Instance :=
  ⟨some "i-6", none, [⟨some "Name", some "api"⟩], none, some "5.6.7.8"⟩

/-- A stale `A` record under the managed suffix `.x.com`. -/
def staleRR : ResourceRecordSet :=
  ⟨some "old.x.com.", some "A", some 300, [⟨some "1.2.3.4"⟩]⟩

/-- An instance whose lifecycle field is present with value `"standard"`. -/
def stdLifecycleInst : Instance :=
  ⟨some "i-3", some "standard", [], none, none⟩

/-- A provider response whose only instance is `stdLifecycleInst`. -/
def stdPages : List DescribeInstancesOutput :=
  [⟨[⟨[stdLifecycleInst]⟩], none⟩]

/-- First-page instance of a two-page provider response. -/
def pageInstA : Instance :=
  ⟨some "i-a", none, [⟨some "Name", some "alpha"⟩], some "a.host.example", none⟩

/-- Second-page instance of a two-page provider response. -/
def pageInstB : Instance :=
  ⟨some "i-b", none, [⟨some "Name", some "beta"⟩], some "b.host.example", none⟩

/-- A paginated provider response: `pageInstB` only appears on page two. -/
def twoPages : List DescribeInstancesOutput :=
  [⟨[⟨[pageInstA]⟩], some "token"⟩, ⟨[⟨[pageInstB]⟩], none⟩]

/-- An instance carrying a tag with an absent key AFTER its `"Name"` tag:
the tag scan stops at `"Name"` and never dereferences the absent key. -/
def nilKeyAfterName : Instance :=
  ⟨some "i-4", none, [⟨some "Name", some "web"⟩, ⟨none, some "x"⟩],
    some "web.host.example", none⟩

/-- An instance whose first tag has an absent key: the tag scan crashes. -/
def nilKeyFirst : Instance :=
  ⟨some "i-5", none, [⟨none, some "x"⟩], some "web.host.example", none⟩

/-- The UPSERT that `run ".x.com" [apiAddr] [staleRR]` emits for `apiAddr`. -/
def apiUp : Change :=
  ⟨"UPSERT", ⟨some "api.x.com", some "A", some 60, [⟨some "5.6.7.8"⟩]⟩⟩

/-- The DELETE that the same run emits for the stale record. -/
def oldDel : Change :=
  ⟨"DELETE", ⟨some "old.x.com", some "A", some 300, [⟨some "1.2.3.4"⟩]⟩⟩

/-! ## Basic lemmas -/

theorem strEndsWith_iff {s t : String} : strEndsWith s t = true ↔ t.data <:+ s.data := by
  simp [strEndsWith]

theorem strStartsWith_iff {s t : String} :
    strStartsWith s t = true ↔ t.data <+: s.data := by
  simp [strStartsWith]

theorem data_append (a b : String) : (a ++ b).data = a.data ++ b.data := rfl

theorem dot_data : (("." : String)).data = ['.'] := rfl

/-- Ending in the dot-terminated suffix exposes the name's shape. -/
theorem endsWith_shape {nm sfx : String} (h : strEndsWith nm (sfx ++ ".") = true) :
    ∃ y, nm.data = y ++ sfx.data ++ ['.'] := by
  rcases strEndsWith_iff.mp h with ⟨y, hy⟩
  exact ⟨y, by rw [← hy, data_append, dot_data, List.append_assoc]⟩

theorem trimDot_concat {s : String} {l : List Char} (h : s.data = l ++ ['.']) :
    trimDot s = ⟨l⟩ := by
  have he : strEndsWith s "." = true := strEndsWith_iff.mpr ⟨l, by rw [h, dot_data]⟩
  rw [trimDot, if_pos he, h, List.dropLast_concat]

theorem hasVal_iff {o : Option String} : hasVal o = true ↔ ∃ s, o = some s ∧ s ≠ "" := by
  cases o <;> simp [hasVal]

/-- `instChange` only ever returns a well-shaped UPSERT. -/
theorem instChange_shape {suffix name : String} {inst : Instance} {ch : Change}
    (h : instChange suffix name inst = some ch) :
    ch.action = "UPSERT" ∧ ch.rrset.name = some (name ++ suffix) ∧
      ch.rrset.ttl = some 60 ∧
      (ch.rrset.type = some "CNAME" ∨ ch.rrset.type = some "A") := by
  unfold instChange at h
  split_ifs at h <;> cases h <;> simp

/-- An instance with a non-empty public hostname or address yields a change. -/
theorem instChange_isSome {suffix name : String} {inst : Instance}
    (h : hasVal inst.publicDnsName = true ∨ hasVal inst.publicIpAddress = true) :
    ∃ ch, instChange suffix name inst = some ch := by
  unfold instChange
  split_ifs with h1 h2
  · exact ⟨_, rfl⟩
  · exact ⟨_, rfl⟩
  · rcases h with h | h <;> simp_all

/-- The instance loop crashes exactly when the tag scan of some instance does. -/
theorem processInstances_error_iff {suffix : String} (l : List Instance)
    (m : List (String × Change)) (cs : List Change) :
    processInstances suffix l m cs = .error () ↔
      ∃ i ∈ l, instUpsert suffix i = .error () := by
  induction l generalizing m cs with
  | nil => simp [processInstances]
  | cons i rest ih =>
    cases he : extractName i.tags with
    | error e =>
      cases e
      simp [processInstances, he, instUpsert]
    | ok name =>
      by_cases hv : valid name = true
      · cases hc : instChange suffix name i with
        | none => simp [processInstances, he, hv, hc, instUpsert, ih]
        | some ch => simp [processInstances, he, hv, hc, instUpsert, ih]
      · simp [processInstances, he, hv, instUpsert, ih]

theorem upsertChanges_cons_some {suffix : String} {i : Instance} {ch : Change}
    (h : instUpsert suffix i = .ok (some ch)) (rest : List Instance) :
    upsertChanges suffix (i :: rest) = ch :: upsertChanges suffix rest := by
  simp [upsertChanges, h]

theorem upsertChanges_cons_skip {suffix : String} {i : Instance}
    (h : instUpsert suffix i = .ok none) (rest : List Instance) :
    upsertChanges suffix (i :: rest) = upsertChanges suffix rest := by
  simp [upsertChanges, h]

theorem upsertKeys_cons_some {suffix : String} {i : Instance} {ch : Change} {k : String}
    (h : instUpsert suffix i = .ok (some ch)) (hn : ch.rrset.name = some k)
    (rest : List Instance) :
    upsertKeys suffix (i :: rest) = k :: upsertKeys suffix rest := by
  simp [upsertKeys, h, hn]

theorem upsertKeys_cons_skip {suffix : String} {i : Instance}
    (h : instUpsert suffix i = .ok none) (rest : List Instance) :
    upsertKeys suffix (i :: rest) = upsertKeys suffix rest := by
  simp [upsertKeys, h]

/-- What the instance loop computes, when no tag scan crashes: the UPSERT
changes are appended in processing order and exactly the upserted names are
erased from `toRemove`. -/
theorem processInstances_ok {suffix : String} {l : List Instance}
    (h : ∀ i ∈ l, instUpsert suffix i ≠ .error ())
    (m : List (String × Change)) (cs : List Change) :
    processInstances suffix l m cs =
      .ok (m.filter (fun p => decide (¬p.1 ∈ upsertKeys suffix l)),
           cs ++ upsertChanges suffix l) := by
  induction l generalizing m cs with
  | nil => simp [processInstances, upsertKeys, upsertChanges]
  | cons i rest ih =>
    have hrest : ∀ i ∈ rest, instUpsert suffix i ≠ .error () :=
      fun j hj => h j (List.mem_cons_of_mem _ hj)
    cases he : extractName i.tags with
    | error e =>
      cases e
      exact absurd (by simp [instUpsert, he]) (h i (List.mem_cons_self _ _))
    | ok name =>
      by_cases hv : valid name = true
      · cases hc : instChange suffix name i with
        | none =>
          have hu : instUpsert suffix i = .ok none := by simp [instUpsert, he, hv, hc]
          simp only [processInstances, he, hv, if_true, hc]
          rw [ih hrest, upsertKeys_cons_skip hu, upsertChanges_cons_skip hu]
        | some ch =>
          have hu : instUpsert suffix i = .ok (some ch) := by simp [instUpsert, he, hv, hc]
          obtain ⟨-, hname, -, -⟩ := instChange_shape hc
          simp only [processInstances, he, hv, if_true, hc]
          rw [ih hrest, upsertKeys_cons_some hu hname, upsertChanges_cons_some hu,
            mapErase, List.filter_filter]
          simp only [Except.ok.injEq, Prod.mk.injEq]
          constructor
          · apply List.filter_congr
            intro p _
            simp [List.mem_cons, not_or, Bool.and_comm, and_comm]
          · simp
      · have hu : instUpsert suffix i = .ok none := by simp [instUpsert, he, hv]
        simp only [processInstances, he]
        rw [if_neg hv, ih hrest, upsertKeys_cons_skip hu, upsertChanges_cons_skip hu]

/-- Inverting a `batch` outcome of `run`: the suffix passed validation, no
instance crashed the loop, at least one UPSERT was emitted, and the batch is
the UPSERTs followed by the surviving deletions. -/
theorem run_batch_inv {suffix : String} {instances : List Instance}
    {zone : List ResourceRecordSet} {b : List Change}
    (h : run suffix instances zone = .batch b) :
    ¬(suffix = "." ∨ ¬strStartsWith suffix ".") ∧
      (∀ i ∈ instances, instUpsert suffix i ≠ .error ()) ∧
      upsertChanges suffix instances ≠ [] ∧
      b = upsertChanges suffix instances ++
            (finalRemove suffix instances zone).map Prod.snd := by
  unfold run at h
  split_ifs at h with hsuf
  have herr : ∀ i ∈ instances, instUpsert suffix i ≠ .error () := by
    intro i hi hbad
    have : processInstances suffix instances (buildToRemove suffix zone) [] = .error () :=
      (processInstances_error_iff ..).mpr ⟨i, hi, hbad⟩
    rw [this] at h
    exact absurd h (by simp)
  rw [processInstances_ok herr] at h
  simp only [List.nil_append] at h
  refine ⟨hsuf, herr, ?_, ?_⟩ <;> split at h <;>
    simp_all [finalRemove, List.length_eq_zero]

/-- Running `run` forward when the suffix is valid and no instance crashes. -/
theorem run_eq {suffix : String} {instances : List Instance}
    (zone : List ResourceRecordSet)
    (hsuf : ¬(suffix = "." ∨ ¬strStartsWith suffix "."))
    (herr : ∀ i ∈ instances, instUpsert suffix i ≠ .error ()) :
    run suffix instances zone =
      if upsertChanges suffix instances = [] then .failure "no changes to apply"
      else .batch (upsertChanges suffix instances ++
            (finalRemove suffix instances zone).map Prod.snd) := by
  unfold run
  rw [if_neg hsuf, processInstances_ok herr]
  simp only [List.nil_append, List.length_eq_zero, finalRemove]

/-! ## Lemmas about the candidate-delete map -/

theorem mapInsert_mem {m : List (String × Change)} {k : String} {v : Change}
    {q : String × Change} (h : q ∈ mapInsert m k v) : q ∈ m ∨ q = (k, v) := by
  unfold mapInsert at h
  split at h
  · rcases List.mem_map.mp h with ⟨p, hp, hq⟩
    by_cases hk : p.1 = k
    · right; rw [if_pos hk] at hq; exact hq.symm
    · left; rw [if_neg hk] at hq; exact hq ▸ hp
  · rcases List.mem_append.mp h with h | h
    · left; exact h
    · right; simpa using h

theorem mapInsert_keys_of_mem {m : List (String × Change)} {k : String} (v : Change)
    (h : k ∈ m.map Prod.fst) :
    (mapInsert m k v).map Prod.fst = m.map Prod.fst := by
  rcases List.mem_map.mp h with ⟨p, hp, hpk⟩
  have hany : m.any (fun p => decide (p.1 = k)) = true :=
    List.any_eq_true.mpr ⟨p, hp, by simpa using hpk⟩
  rw [mapInsert, if_pos hany, List.map_map]
  apply List.map_congr_left
  intro q _
  by_cases hq : q.1 = k <;> simp [hq]

theorem mapInsert_keys_of_not_mem {m : List (String × Change)} {k : String} (v : Change)
    (h : ¬k ∈ m.map Prod.fst) :
    (mapInsert m k v).map Prod.fst = m.map Prod.fst ++ [k] := by
  have hany : m.any (fun p => decide (p.1 = k)) = false := by
    rw [Bool.eq_false_iff]
    intro hc
    rcases List.any_eq_true.mp hc with ⟨p, hp, hpk⟩
    exact h (List.mem_map.mpr ⟨p, hp, by simpa using hpk⟩)
  rw [mapInsert, hany]
  simp

theorem mapInsert_keys_nodup {m : List (String × Change)} {k : String} {v : Change}
    (h : (m.map Prod.fst).Nodup) : ((mapInsert m k v).map Prod.fst).Nodup := by
  by_cases hk : k ∈ m.map Prod.fst
  · rw [mapInsert_keys_of_mem v hk]; exact h
  · rw [mapInsert_keys_of_not_mem v hk]
    simp [List.nodup_append, h, hk]

theorem mapInsert_keys_superset {m : List (String × Change)} {k k' : String} {v : Change}
    (h : k' ∈ m.map Prod.fst) : k' ∈ (mapInsert m k v).map Prod.fst := by
  by_cases hk : k ∈ m.map Prod.fst
  · rwa [mapInsert_keys_of_mem v hk]
  · rw [mapInsert_keys_of_not_mem v hk]; exact List.mem_append_left _ h

theorem mapInsert_key_mem {m : List (String × Change)} (k : String) (v : Change) :
    k ∈ (mapInsert m k v).map Prod.fst := by
  by_cases hk : k ∈ m.map Prod.fst
  · rwa [mapInsert_keys_of_mem v hk]
  · rw [mapInsert_keys_of_not_mem v hk]; simp

theorem buildToRemove_aux_mem (suffix : String) (zone : List ResourceRecordSet) :
    ∀ (acc : List (String × Change)) (q : String × Change),
      q ∈ zone.foldl
        (fun m rr =>
          match deleteCandidate suffix rr with
          | none => m
          | some (k, v) => mapInsert m k v) acc →
      q ∈ acc ∨ ∃ rr ∈ zone, deleteCandidate suffix rr = some q := by
  induction zone with
  | nil => intro acc q h; exact Or.inl h
  | cons rr rest ih =>
    intro acc q h
    rcases ih _ q h with h' | ⟨rr', hrr', hdc⟩
    · simp only [] at h'
      cases hdc : deleteCandidate suffix rr with
      | none => rw [hdc] at h'; exact Or.inl h'
      | some p =>
        obtain ⟨k, v⟩ := p
        rw [hdc] at h'
        rcases mapInsert_mem h' with h' | rfl
        · exact Or.inl h'
        · exact Or.inr ⟨rr, List.mem_cons_self _ _, hdc⟩
    · exact Or.inr ⟨rr', List.mem_cons_of_mem _ hrr', hdc⟩

/-- Every entry of `toRemove` comes from a zone record. -/
theorem buildToRemove_mem {suffix : String} {zone : List ResourceRecordSet}
    {q : String × Change} (h : q ∈ buildToRemove suffix zone) :
    ∃ rr ∈ zone, deleteCandidate suffix rr = some q := by
  rcases buildToRemove_aux_mem suffix zone [] q h with h' | h'
  · simp at h'
  · exact h'

theorem buildToRemove_aux_nodup (suffix : String) (zone : List ResourceRecordSet) :
    ∀ (acc : List (String × Change)), (acc.map Prod.fst).Nodup →
      ((zone.foldl
        (fun m rr =>
          match deleteCandidate suffix rr with
          | none => m
          | some (k, v) => mapInsert m k v) acc).map Prod.fst).Nodup := by
  induction zone with
  | nil => intro acc h; exact h
  | cons rr rest ih =>
    intro acc h
    apply ih
    simp only []
    cases hdc : deleteCandidate suffix rr with
    | none => exact h
    | some p => obtain ⟨k, v⟩ := p; exact mapInsert_keys_nodup h

/-- The keys of `toRemove` are distinct (it is a map). -/
theorem buildToRemove_keys_nodup (suffix : String) (zone : List ResourceRecordSet) :
    ((buildToRemove suffix zone).map Prod.fst).Nodup :=
  buildToRemove_aux_nodup suffix zone [] (by simp)

theorem buildToRemove_aux_superset (suffix : String) (zone : List ResourceRecordSet) :
    ∀ (acc : List (String × Change)) (k : String), k ∈ acc.map Prod.fst →
      k ∈ (zone.foldl
        (fun m rr =>
          match deleteCandidate suffix rr with
          | none => m
          | some (k, v) => mapInsert m k v) acc).map Prod.fst := by
  induction zone with
  | nil => intro acc k h; exact h
  | cons rr rest ih =>
    intro acc k h
    apply ih
    simp only []
    cases hdc : deleteCandidate suffix rr with
    | none => exact h
    | some p => obtain ⟨k', v⟩ := p; exact mapInsert_keys_superset h

theorem buildToRemove_aux_complete (suffix : String) {zone : List ResourceRecordSet}
    {rr : ResourceRecordSet} {k : String} {v : Change} (hrr : rr ∈ zone)
    (hdc : deleteCandidate suffix rr = some (k, v)) :
    ∀ (acc : List (String × Change)),
      k ∈ (zone.foldl
        (fun m rr =>
          match deleteCandidate suffix rr with
          | none => m
          | some (k, v) => mapInsert m k v) acc).map Prod.fst := by
  induction zone with
  | nil => cases hrr
  | cons rr' rest ih =>
    intro acc
    rcases List.mem_cons.mp hrr with rfl | hrr'
    · rw [List.foldl_cons, hdc]
      exact buildToRemove_aux_superset suffix rest _ k (mapInsert_key_mem k v)
    · rw [List.foldl_cons]
      exact ih hrr' _

/-- Every candidate record contributes its key to `toRemove`. -/
theorem buildToRemove_key_complete {suffix : String} {zone : List ResourceRecordSet}
    {rr : ResourceRecordSet} {k : String} {v : Change} (hrr : rr ∈ zone)
    (hdc : deleteCandidate suffix rr = some (k, v)) :
    k ∈ (buildToRemove suffix zone).map Prod.fst :=
  buildToRemove_aux_complete suffix hrr hdc []

/-- Full inversion of `deleteCandidate`. -/
theorem deleteCandidate_inv {suffix : String} {rr : ResourceRecordSet}
    {k : String} {v : Change} (h : deleteCandidate suffix rr = some (k, v)) :
    ∃ nm t, rr.name = some nm ∧ rr.type = some t ∧
      nm ≠ suffix ++ "." ∧ strEndsWith nm (suffix ++ ".") = true ∧
      (t = "A" ∨ t = "CNAME") ∧ k = trimDot nm ∧
      v = ⟨"DELETE", ⟨some (trimDot nm), some t, rr.ttl, rr.resourceRecords⟩⟩ := by
  unfold deleteCandidate at h
  cases hn : rr.name with
  | none => rw [hn] at h; cases h
  | some nm =>
    rw [hn] at h
    simp only [] at h
    split_ifs at h with h1 h2
    cases ht : rr.type with
    | none => rw [ht] at h; cases h
    | some t =>
      rw [ht] at h
      simp only [] at h
      split_ifs at h with h3
      injection h with h
      injection h with hk hv
      refine ⟨nm, t, rfl, rfl, h1, by simpa using h2, ?_, hk.symm, hv.symm⟩
      rcases not_and_or.mp h3 with h | h <;> simp at h <;> [left; right] <;> exact h

/-- Zone records with a missing name or missing type are skipped. -/
theorem deleteCandidate_skip {suffix : String} {rr : ResourceRecordSet}
    (h : rr.name = none ∨ rr.type = none) : deleteCandidate suffix rr = none := by
  unfold deleteCandidate
  rcases h with h | h
  · rw [h]
  · cases hn : rr.name with
    | none => rfl
    | some nm =>
      rw [h]
      simp only []
      split_ifs <;> rfl

/-! ## Lemmas about the label validator -/

theorem validChar_iff (c : Char) :
    validChar c = true ↔
      ('a' ≤ c ∧ c ≤ 'z') ∨ ('A' ≤ c ∧ c ≤ 'Z') ∨ ('0' ≤ c ∧ c ≤ '9') ∨ c = '-' := by
  unfold validChar
  split_ifs <;> simp_all

theorem valid_iff (label : String) :
    valid label = true ↔ label ≠ "" ∧ ∀ c ∈ label.data, validChar c = true := by
  unfold valid
  split_ifs with h
  · simp [h]
  · simp [h, List.all_eq_true]

theorem validChar_le {c : Char} (h : validChar c = true) : c.toNat ≤ 122 := by
  rcases (validChar_iff c).mp h with ⟨h1, h2⟩ | ⟨h1, h2⟩ | ⟨h1, h2⟩ | rfl
  · exact UInt32.toNat_le_of_le (by decide) (Char.le_def.mp h2)
  · exact le_trans (@UInt32.toNat_le_of_le c.val 90 (by decide) (Char.le_def.mp h2)) (by decide)
  · exact le_trans (@UInt32.toNat_le_of_le c.val 57 (by decide) (Char.le_def.mp h2)) (by decide)
  · decide

theorem validChar_bad {c : Char}
    (h : c = '.' ∨ c = '_' ∨ c = ' ' ∨ 127 < c.toNat) : validChar c = false := by
  rcases h with rfl | rfl | rfl | h
  · decide
  · decide
  · decide
  · rw [Bool.eq_false_iff]
    intro hv
    exact absurd (validChar_le hv) (by omega)

theorem valid_replicate (n : Nat) : valid ⟨List.replicate (n + 1) 'a'⟩ = true := by
  have hne : (⟨List.replicate (n + 1) 'a'⟩ : String) ≠ "" := by
    intro h
    have h2 : List.replicate (n + 1) 'a' = ([] : List Char) := congrArg String.data h
    simp at h2
  unfold valid
  rw [if_neg hne, List.all_eq_true]
  intro c hc
  have hc' : c ∈ List.replicate (n + 1) 'a' := hc
  rw [List.eq_of_mem_replicate hc']
  decide

/-! ## Lemmas about the instance snapshot builder -/

theorem runningInstances_inner (l : List Instance) :
    ∀ out : List Instance,
      l.foldl
        (fun out inst =>
          if inst.instanceLifecycle ≠ none then out else out ++ [inst]) out =
      out ++ l.filter (fun i => decide (i.instanceLifecycle = none)) := by
  induction l with
  | nil => intro out; simp
  | cons i l ih =>
    intro out
    rw [List.foldl_cons, ih]
    by_cases hi : i.instanceLifecycle = none
    · rw [if_neg (by simpa using hi)]
      simp [List.filter_cons, hi]
    · rw [if_pos (by simpa using hi)]
      simp [List.filter_cons, hi]

theorem runningInstances_outer (rs : List Reservation) :
    ∀ out : List Instance,
      rs.foldl
        (fun out r =>
          r.instances.foldl
            (fun out inst =>
              if inst.instanceLifecycle ≠ none then out else out ++ [inst]) out) out =
      out ++ ((rs.map Reservation.instances).flatten).filter
        (fun i => decide (i.instanceLifecycle = none)) := by
  induction rs with
  | nil => intro out; simp
  | cons r rs ih =>
    intro out
    rw [List.foldl_cons, ih, runningInstances_inner]
    simp

/-- The fused collection-and-filter loop of `runningInstances`, as filter of
the enumeration of the first response. -/
theorem runningInstances_eq (resp : DescribeInstancesOutput)
    (rest : List DescribeInstancesOutput) :
    runningInstances (resp :: rest) =
      .ok ((queriedInstances (resp :: rest)).filter
        (fun i => decide (i.instanceLifecycle = none))) := by
  unfold runningInstances queriedInstances
  simp only []
  rw [runningInstances_outer]
  simp

/-! ## Lemmas about the tag scan -/

theorem extractName_total {tags : List Tag}
    (h : ∀ t ∈ tags, t.key ≠ none ∧ t.value ≠ none) :
    ∃ s, extractName tags = .ok s := by
  induction tags with
  | nil => exact ⟨"", rfl⟩
  | cons t ts ih =>
    obtain ⟨hk, hv⟩ := h t (List.mem_cons_self _ _)
    cases hkk : t.key with
    | none => exact absurd hkk hk
    | some k =>
      by_cases hname : k = "Name"
      · cases hvv : t.value with
        | none => exact absurd hvv hv
        | some v => exact ⟨v, by simp [extractName, hkk, hname, hvv]⟩
      · obtain ⟨s, hs⟩ := ih fun t' ht' => h t' (List.mem_cons_of_mem _ ht')
        exact ⟨s, by simp [extractName, hkk, hname, hs]⟩

theorem extractName_crash {pre : List Tag} {t : Tag} (post : List Tag)
    (hpre : ∀ t' ∈ pre, t'.key ≠ none ∧ t'.key ≠ some "Name")
    (ht : t.key = none ∨ (t.key = some "Name" ∧ t.value = none)) :
    extractName (pre ++ t :: post) = .error () := by
  induction pre with
  | nil =>
    rcases ht with h | ⟨h1, h2⟩
    · simp [extractName, h]
    · simp [extractName, h1, h2]
  | cons t' pre ih =>
    obtain ⟨hk, hname⟩ := hpre t' (List.mem_cons_self _ _)
    cases hkk : t'.key with
    | none => exact absurd hkk hk
    | some k =>
      have hkn : ¬k = "Name" := fun h => hname (h ▸ hkk)
      simpa [extractName, hkk, hkn] using
        ih fun q hq => hpre q (List.mem_cons_of_mem _ hq)

/-- An instance whose tag scan crashes makes `run` panic (given a suffix
that passes validation). -/
theorem run_panic_of_crash {suffix : String} {instances : List Instance}
    {inst : Instance} (zone : List ResourceRecordSet)
    (hsuf : ¬(suffix = "." ∨ ¬strStartsWith suffix "."))
    (hi : inst ∈ instances) (hx : extractName inst.tags = .error ()) :
    run suffix instances zone = .panic := by
  have hiu : instUpsert suffix inst = .error () := by simp [instUpsert, hx]
  have hp : processInstances suffix instances (buildToRemove suffix zone) [] = .error () :=
    (processInstances_error_iff ..).mpr ⟨inst, hi, hiu⟩
  unfold run
  rw [if_neg hsuf, hp]

/-- With every tag fully populated, `run` never panics. -/
theorem run_no_panic {suffix : String} {instances : List Instance}
    (zone : List ResourceRecordSet)
    (h : ∀ i ∈ instances, ∀ t ∈ i.tags, t.key ≠ none ∧ t.value ≠ none) :
    run suffix instances zone ≠ .panic := by
  unfold run
  split_ifs with hsuf
  · simp
  · cases hp : processInstances suffix instances (buildToRemove suffix zone) [] with
    | error e =>
      cases e
      rcases (processInstances_error_iff ..).mp hp with ⟨i, hi, hiu⟩
      obtain ⟨s, hs⟩ := extractName_total (h i hi)
      have hok : instUpsert suffix i ≠ .error () := by
        simp only [instUpsert, hs]
        split_ifs <;> simp
      exact absurd hiu hok
    | ok p =>
      obtain ⟨m, cs⟩ := p
      simp only []
      split_ifs <;> simp

/-! ## Shape lemmas for the final batch -/

theorem valid_ne_empty {s : String} (h : valid s = true) : s ≠ "" :=
  ((valid_iff s).mp h).1

theorem instUpsert_some_shape {suffix : String} {i : Instance} {ch : Change}
    (h : instUpsert suffix i = .ok (some ch)) :
    ∃ name, extractName i.tags = .ok name ∧ valid name = true ∧
      instChange suffix name i = some ch := by
  unfold instUpsert at h
  cases he : extractName i.tags with
  | error e => rw [he] at h; cases h
  | ok name =>
    rw [he] at h
    simp only [] at h
    split_ifs at h with hv
    · exact ⟨name, rfl, hv, by injection h⟩
    · injection h with h; cases h

theorem upsertChanges_mem {suffix : String} {l : List Instance} {i : Instance}
    {ch : Change} (hi : i ∈ l) (h : instUpsert suffix i = .ok (some ch)) :
    ch ∈ upsertChanges suffix l :=
  List.mem_filterMap.mpr ⟨i, hi, by rw [h]⟩

theorem upsertKeys_mem {suffix : String} {l : List Instance} {i : Instance}
    {ch : Change} {k : String} (hi : i ∈ l)
    (h : instUpsert suffix i = .ok (some ch)) (hn : ch.rrset.name = some k) :
    k ∈ upsertKeys suffix l :=
  List.mem_filterMap.mpr ⟨i, hi, by rw [h]; exact hn⟩

theorem upsertChanges_shape {suffix : String} {l : List Instance} {ch : Change}
    (h : ch ∈ upsertChanges suffix l) :
    ∃ i ∈ l, instUpsert suffix i = .ok (some ch) := by
  obtain ⟨i, hi, hf⟩ := List.mem_filterMap.mp h
  refine ⟨i, hi, ?_⟩
  cases hiu : instUpsert suffix i with
  | error e => rw [hiu] at hf; cases hf
  | ok o =>
    cases o with
    | none => rw [hiu] at hf; cases hf
    | some ch' =>
      rw [hiu] at hf
      simp only [Option.some.injEq] at hf
      rw [← hf]

theorem upsertChanges_full {suffix : String} {l : List Instance} {ch : Change}
    (h : ch ∈ upsertChanges suffix l) :
    ch.action = "UPSERT" ∧ ch.rrset.ttl = some 60 ∧
      ∃ nm, ch.rrset.name = some nm ∧ nm ∈ upsertKeys suffix l := by
  obtain ⟨i, hi, hiu⟩ := upsertChanges_shape h
  obtain ⟨name, -, -, hc⟩ := instUpsert_some_shape hiu
  obtain ⟨ha, hn, ht, -⟩ := instChange_shape hc
  exact ⟨ha, ht, name ++ suffix, hn, upsertKeys_mem hi hiu hn⟩

theorem finalRemove_mem {suffix : String} {l : List Instance}
    {zone : List ResourceRecordSet} {p : String × Change}
    (h : p ∈ finalRemove suffix l zone) :
    p ∈ buildToRemove suffix zone ∧ p.1 ∉ upsertKeys suffix l := by
  have h2 := List.mem_filter.mp h
  exact ⟨h2.1, by simpa using h2.2⟩

theorem finalRemove_snd_shape {suffix : String} {l : List Instance}
    {zone : List ResourceRecordSet} {ch : Change}
    (h : ch ∈ (finalRemove suffix l zone).map Prod.snd) :
    ∃ rr ∈ zone, ∃ nm t, rr.name = some nm ∧ rr.type = some t ∧
      nm ≠ suffix ++ "." ∧ strEndsWith nm (suffix ++ ".") = true ∧
      (t = "A" ∨ t = "CNAME") ∧
      ch = ⟨"DELETE", ⟨some (trimDot nm), some t, rr.ttl, rr.resourceRecords⟩⟩ ∧
      trimDot nm ∉ upsertKeys suffix l := by
  obtain ⟨p, hp, rfl⟩ := List.mem_map.mp h
  obtain ⟨k, v⟩ := p
  obtain ⟨hbtr, hnk⟩ := finalRemove_mem hp
  obtain ⟨rr, hrr, hdc⟩ := buildToRemove_mem hbtr
  obtain ⟨nm, t, h1, h2, h3, h4, h5, hkeq, hveq⟩ := deleteCandidate_inv hdc
  subst hkeq
  exact ⟨rr, hrr, nm, t, h1, h2, h3, h4, h5, hveq, hnk⟩

theorem buildToRemove_entry {suffix : String} {zone : List ResourceRecordSet}
    {p : String × Change} (h : p ∈ buildToRemove suffix zone) :
    p.2.action = "DELETE" ∧ p.2.rrset.name = some p.1 := by
  obtain ⟨k, v⟩ := p
  obtain ⟨rr, -, hdc⟩ := buildToRemove_mem h
  obtain ⟨nm, t, -, -, -, -, -, hkeq, hveq⟩ := deleteCandidate_inv hdc
  subst hkeq
  refine ⟨?_, ?_⟩ <;> simp [hveq]

/-- Shape of a name properly ending in the dot-terminated suffix. -/
theorem proper_suffix_shape {nm sfx : String}
    (h : strEndsWith nm (sfx ++ ".") = true) (hne : nm ≠ sfx ++ ".") :
    ∃ y, y ≠ [] ∧ nm.data = y ++ sfx.data ++ ['.'] ∧
      trimDot nm = ⟨y ++ sfx.data⟩ ∧
      strEndsWith (trimDot nm) sfx = true ∧
      (sfx ++ ".").data.length < nm.data.length ∧
      sfx.data.length < (trimDot nm).data.length := by
  obtain ⟨y, hy⟩ := endsWith_shape h
  have hyne : y ≠ [] := by
    intro h0
    subst h0
    apply hne
    apply String.ext
    rw [hy, data_append, dot_data]
    simp
  have hpos : 0 < y.length := List.length_pos.mpr hyne
  have htd : trimDot nm = ⟨y ++ sfx.data⟩ := trimDot_concat hy
  have hsw : strEndsWith (trimDot nm) sfx = true := by
    rw [htd]
    exact strEndsWith_iff.mpr ⟨y, rfl⟩
  have hl1 : (sfx ++ ".").data.length < nm.data.length := by
    rw [hy, data_append, dot_data]
    simp only [List.length_append, List.length_cons, List.length_nil]
    omega
  have hl2 : sfx.data.length < (trimDot nm).data.length := by
    rw [htd]
    show sfx.data.length < (y ++ sfx.data).length
    simp only [List.length_append]
    omega
  exact ⟨y, hyne, hy, htd, hsw, hl1, hl2⟩

theorem upsertChanges_filter_del (suffix : String) (l : List Instance) :
    (upsertChanges suffix l).filter (fun ch => decide (ch.action = "DELETE")) = [] := by
  rw [List.filter_eq_nil_iff]
  intro ch hch
  obtain ⟨ha, -, -⟩ := upsertChanges_full hch
  simp [ha]

theorem finalRemove_filter_del (suffix : String) (l : List Instance)
    (zone : List ResourceRecordSet) :
    ((finalRemove suffix l zone).map Prod.snd).filter
        (fun ch => decide (ch.action = "DELETE")) =
      (finalRemove suffix l zone).map Prod.snd := by
  rw [List.filter_eq_self]
  intro ch hch
  obtain ⟨rr, -, nm, t, -, -, -, -, -, hcheq, -⟩ := finalRemove_snd_shape hch
  simp [hcheq]

theorem finalRemove_names_pairwise (suffix : String) (l : List Instance)
    (zone : List ResourceRecordSet) :
    ((finalRemove suffix l zone).map Prod.snd).Pairwise
      (fun c c' => c.rrset.name ≠ c'.rrset.name) := by
  rw [List.pairwise_map]
  have hsub0 : List.Sublist (finalRemove suffix l zone) (buildToRemove suffix zone) := by
    unfold finalRemove
    exact List.filter_sublist _
  have hnd : ((finalRemove suffix l zone).map Prod.fst).Nodup :=
    (buildToRemove_keys_nodup suffix zone).sublist (hsub0.map Prod.fst)
  have hpw : (finalRemove suffix l zone).Pairwise (fun p q => p.1 ≠ q.1) := by
    rw [List.Nodup, List.pairwise_map] at hnd
    exact hnd
  refine hpw.imp_of_mem ?_
  intro p q hp hq hne
  have e1 := (buildToRemove_entry (finalRemove_mem hp).1).2
  have e2 := (buildToRemove_entry (finalRemove_mem hq).1).2
  rw [e1, e2]
  simpa using hne

theorem upsertChanges_pairwise {suffix : String} {l : List Instance}
    (h : (upsertKeys suffix l).Nodup) :
    (upsertChanges suffix l).Pairwise (fun c c' => c.rrset.name ≠ c'.rrset.name) := by
  induction l with
  | nil => simp [upsertChanges]
  | cons i rest ih =>
    cases hiu : instUpsert suffix i with
    | error e =>
      cases e
      have h1 : upsertChanges suffix (i :: rest) = upsertChanges suffix rest := by
        simp [upsertChanges, hiu]
      have h2 : upsertKeys suffix (i :: rest) = upsertKeys suffix rest := by
        simp [upsertKeys, hiu]
      rw [h1]
      exact ih (h2 ▸ h)
    | ok o =>
      cases o with
      | none =>
        rw [upsertChanges_cons_skip hiu]
        exact ih ((upsertKeys_cons_skip hiu rest) ▸ h)
      | some ch =>
        obtain ⟨name, -, -, hc⟩ := instUpsert_some_shape hiu
        obtain ⟨-, hn, -, -⟩ := instChange_shape hc
        rw [upsertChanges_cons_some hiu]
        rw [upsertKeys_cons_some hiu hn] at h
        rw [List.nodup_cons] at h
        refine List.Pairwise.cons ?_ (ih h.2)
        intro ch' hch'
        obtain ⟨-, -, nm', hn', hk'⟩ := upsertChanges_full hch'
        rw [hn, hn']
        intro he
        injection he with he
        rw [← he] at hk'
        exact h.1 hk'

/-! ## Claim C1 -/

/-- C1: for every pair of snapshots, if the instance loop of `run` produces
zero UPSERT changes then `run` fails with `"no changes to apply"` and
submits no zone mutation; if at least one UPSERT is produced this error
cannot occur; in particular an empty instance snapshot always triggers the
failure.  (The suffix is assumed to pass the up-front validation, without
which the reconciliation never starts.) -/
theorem safety_guard_zero_upserts (suffix : String) (instances : List Instance)
    (zone : List ResourceRecordSet)
    (hsuf : ¬(suffix = "." ∨ ¬strStartsWith suffix ".")) :
    (∀ m, processInstances suffix instances (buildToRemove suffix zone) [] = .ok (m, []) →
      run suffix instances zone = .failure "no changes to apply" ∧
      submitted (run suffix instances zone) = none) ∧
    (∀ m cs, processInstances suffix instances (buildToRemove suffix zone) [] = .ok (m, cs) →
      cs ≠ [] → ∀ msg, run suffix instances zone ≠ .failure msg) ∧
    (instances = [] →
      run suffix instances zone = .failure "no changes to apply" ∧
      submitted (run suffix instances zone) = none) := by
  refine ⟨?_, ?_, ?_⟩
  · intro m hP
    have hrun : run suffix instances zone = .failure "no changes to apply" := by
      unfold run
      rw [if_neg hsuf, hP]
      rfl
    exact ⟨hrun, by rw [hrun]; rfl⟩
  · intro m cs hP hcs msg
    unfold run
    rw [if_neg hsuf, hP]
    simp only []
    rw [if_neg (by simpa [List.length_eq_zero] using hcs)]
    simp
  · intro h
    subst h
    have hP : processInstances suffix [] (buildToRemove suffix zone) [] =
        .ok (buildToRemove suffix zone, []) := rfl
    have hrun : run suffix [] zone = .failure "no changes to apply" := by
      unfold run
      rw [if_neg hsuf, hP]
      rfl
    exact ⟨hrun, by rw [hrun]; rfl⟩

/-- C1 witness: the guard fires on an empty instance snapshot. -/
theorem safety_guard_zero_upserts_witness :
    run ".x.com" [] [staleRR] = .failure "no changes to apply" ∧
    submitted (run ".x.com" [] [staleRR]) = none :=
  (safety_guard_zero_upserts ".x.com" [] [staleRR] (by decide)).2.2 rfl

/-! ## Claim C6 -/

/-- C6 counterexample: the claim says an instance whose lifecycle class is
`"standard"` is kept, but the snapshot builder drops every instance whose
lifecycle field is present — `stdLifecycleInst` is queried yet the returned
snapshot is empty. -/
theorem lifecycle_standard_dropped_cex :
    stdLifecycleInst.instanceLifecycle = some "standard" ∧
    stdLifecycleInst ∈ queriedInstances stdPages ∧
    runningInstances stdPages = .ok [] ∧
    stdLifecycleInst ∉ ([] : List Instance) := by
  refine ⟨rfl, by decide, by decide, by decide⟩

/-- C6 (amended): the snapshot keeps exactly the queried instances whose
lifecycle field is absent: an instance with no lifecycle class is kept, and
an instance is kept iff its lifecycle class is absent (any present value,
including `""` and `"standard"`, is dropped). -/
theorem lifecycle_filter_amended (resp : DescribeInstancesOutput)
    (rest : List DescribeInstancesOutput) (out : List Instance)
    (h : runningInstances (resp :: rest) = .ok out) :
    ∀ inst, inst ∈ out ↔
      inst ∈ queriedInstances (resp :: rest) ∧ inst.instanceLifecycle = none := by
  rw [runningInstances_eq] at h
  injection h with h
  intro inst
  rw [← h]
  simp [List.mem_filter]

/-- C6 witness: instantiating the amended claim on the `stdPages` fixture. -/
theorem lifecycle_filter_amended_witness :
    stdLifecycleInst ∈ ([] : List Instance) ↔
      stdLifecycleInst ∈ queriedInstances stdPages ∧
      stdLifecycleInst.instanceLifecycle = none :=
  lifecycle_filter_amended ⟨[⟨[stdLifecycleInst]⟩], none⟩ [] [] (by decide) stdLifecycleInst

/-! ## Claim C7 -/

/-- C7 counterexample: the claim says every running instance across every
page of the paginated response appears in the list, but the builder consumes
only the first response: `pageInstB` (second page, standard lifecycle) is
reported by the provider yet missing from both the enumeration and the
result. -/
theorem pagination_cex :
    pageInstB ∈ allPagesInstances twoPages ∧
    pageInstB.instanceLifecycle = none ∧
    runningInstances twoPages = .ok [pageInstA] ∧
    pageInstB ∉ [pageInstA] ∧
    pageInstB ∉ queriedInstances twoPages := by
  refine ⟨by decide, rfl, by decide, by decide, by decide⟩

/-- C7 (amended): the snapshot builder enumerates every instance of every
reservation of the single response it consumes (the first page), in order,
and returns that enumeration filtered by the lifecycle check; any further
pages are never requested (the result only depends on the first response). -/
theorem first_page_collected_amended (resp : DescribeInstancesOutput)
    (rest : List DescribeInstancesOutput) :
    queriedInstances (resp :: rest) =
      (resp.reservations.map Reservation.instances).flatten ∧
    runningInstances (resp :: rest) =
      .ok ((queriedInstances (resp :: rest)).filter
        (fun i => decide (i.instanceLifecycle = none))) ∧
    runningInstances (resp :: rest) = runningInstances [resp] := by
  refine ⟨rfl, runningInstances_eq resp rest, ?_⟩
  rw [runningInstances_eq resp rest, runningInstances_eq resp []]
  rfl

/-! ## Claim C9 -/

/-- C9: `valid label = true` iff `label` is non-empty and every character is
an ASCII letter, ASCII digit, or hyphen; all other strings (empty, or
containing `'.'`, `'_'`, a space, or a non-ASCII character) are rejected;
no length limit is enforced. -/
theorem valid_characterization (label : String) :
    (valid label = true ↔
      label ≠ "" ∧ ∀ c ∈ label.data,
        ('a' ≤ c ∧ c ≤ 'z') ∨ ('A' ≤ c ∧ c ≤ 'Z') ∨ ('0' ≤ c ∧ c ≤ '9') ∨ c = '-') ∧
    (∀ c ∈ label.data, (c = '.' ∨ c = '_' ∨ c = ' ' ∨ 127 < c.toNat) →
      valid label = false) ∧
    (valid "" = false) ∧
    (∀ n : Nat, valid ⟨List.replicate (n + 1) 'a'⟩ = true) := by
  refine ⟨?_, ?_, by decide, valid_replicate⟩
  · rw [valid_iff]
    simp only [validChar_iff]
  · intro c hc hbad
    rw [Bool.eq_false_iff]
    intro hv
    have h2 := ((valid_iff label).mp hv).2 c hc
    rw [validChar_bad hbad] at h2
    cases h2

/-- C9 witness: the characterization evaluated on concrete labels. -/
theorem valid_characterization_witness :
    ("web-1" ≠ "" ∧ ∀ c ∈ "web-1".data,
      ('a' ≤ c ∧ c ≤ 'z') ∨ ('A' ≤ c ∧ c ≤ 'Z') ∨ ('0' ≤ c ∧ c ≤ '9') ∨ c = '-') ∧
    valid "a.b" = false :=
  ⟨(valid_characterization "web-1").1.mp (by decide),
    (valid_characterization "a.b").2.1 '.' (by decide) (by decide)⟩

/-- Inversion of a tag-scan crash: the crashing tag sits at or before the
first `"Name"` tag (every tag before it has a present, non-`"Name"` key),
and either its key is absent or it is the first `"Name"` tag with an
absent value. -/
theorem extractName_error_shape {tags : List Tag}
    (h : extractName tags = .error ()) :
    ∃ pre t post, tags = pre ++ t :: post ∧
      (∀ t' ∈ pre, t'.key ≠ none ∧ t'.key ≠ some "Name") ∧
      (t.key = none ∨ (t.key = some "Name" ∧ t.value = none)) := by
  induction tags with
  | nil => simp [extractName] at h
  | cons t ts ih =>
    cases hk : t.key with
    | none => exact ⟨[], t, ts, rfl, by simp, Or.inl hk⟩
    | some k =>
      by_cases hname : k = "Name"
      · subst hname
        cases hv : t.value with
        | none => exact ⟨[], t, ts, rfl, by simp, Or.inr ⟨hk, hv⟩⟩
        | some v => simp [extractName, hk, hv] at h
      · have h2 : extractName ts = .error () := by
          simpa [extractName, hk, hname] using h
        obtain ⟨pre, t', post, heq, hpre, ht'⟩ := ih h2
        refine ⟨t :: pre, t', post, by rw [heq]; rfl, ?_, ht'⟩
        intro x hx
        rcases List.mem_cons.mp hx with rfl | hx'
        · exact ⟨by simp [hk], by simp [hk, hname]⟩
        · exact hpre x hx'

/-- Inversion of a panic of `run`: some instance's tag scan crashed. -/
theorem run_panic_inv {suffix : String} {instances : List Instance}
    {zone : List ResourceRecordSet} (h : run suffix instances zone = .panic) :
    ∃ inst ∈ instances, extractName inst.tags = .error () := by
  unfold run at h
  split_ifs at h with hsuf
  cases hp : processInstances suffix instances (buildToRemove suffix zone) [] with
  | error e =>
    cases e
    obtain ⟨i, hi, hiu⟩ := (processInstances_error_iff ..).mp hp
    refine ⟨i, hi, ?_⟩
    cases he : extractName i.tags with
    | error e' => cases e'; rfl
    | ok name =>
      unfold instUpsert at hiu
      rw [he] at hiu
      simp only [] at hiu
      split_ifs at hiu
  | ok p =>
    obtain ⟨m, cs⟩ := p
    rw [hp] at h
    simp only [] at h
    split_ifs at h

/-! ## Claim C10 -/

/-- C10 counterexample: the claim says an instance carrying a tag with an
absent key makes `run` crash, but `nilKeyAfterName` carries such a tag
(after its `"Name"` tag) and `run` completes normally with a batch. -/
theorem tag_crash_cex :
    (∃ tag ∈ nilKeyAfterName.tags, tag.key = none) ∧
    run ".x.com" [nilKeyAfterName] [] ≠ .panic ∧
    run ".x.com" [nilKeyAfterName] [] =
      .batch [⟨"UPSERT", ⟨some "web.x.com", some "CNAME", some 60,
        [⟨some "web.host.example"⟩]⟩⟩] := by
  refine ⟨by decide, by decide, by decide⟩

/-- C10 (amended): `run` is total over zone snapshots (a record with a
missing name or missing kind is skipped); the tag scan dereferences tag
keys only up to the first `"Name"` tag, so the scan crashes exactly when a
tag with an absent key sits at or before the first `"Name"` tag, or that
tag has an absent value; for a suffix passing validation, `run` panics if
and only if some kept instance has such a tag; and `run` cannot panic when
every tag of every instance has both key and value present. -/
theorem tag_deref_totality_amended :
    (∀ (suffix : String) (rr : ResourceRecordSet),
      rr.name = none ∨ rr.type = none → deleteCandidate suffix rr = none) ∧
    (∀ tags : List Tag,
      extractName tags = .error () ↔
        ∃ pre t post, tags = pre ++ t :: post ∧
          (∀ t' ∈ pre, t'.key ≠ none ∧ t'.key ≠ some "Name") ∧
          (t.key = none ∨ (t.key = some "Name" ∧ t.value = none))) ∧
    (∀ (suffix : String) (instances : List Instance) (zone : List ResourceRecordSet),
      ¬(suffix = "." ∨ ¬strStartsWith suffix ".") →
      (run suffix instances zone = .panic ↔
        ∃ inst ∈ instances, ∃ pre t post, inst.tags = pre ++ t :: post ∧
          (∀ t' ∈ pre, t'.key ≠ none ∧ t'.key ≠ some "Name") ∧
          (t.key = none ∨ (t.key = some "Name" ∧ t.value = none)))) ∧
    (∀ (suffix : String) (instances : List Instance) (zone : List ResourceRecordSet),
      (∀ i ∈ instances, ∀ t ∈ i.tags, t.key ≠ none ∧ t.value ≠ none) →
      run suffix instances zone ≠ .panic) := by
  refine ⟨fun _ _ h => deleteCandidate_skip h, ?_, ?_,
    fun _ _ zone h => run_no_panic zone h⟩
  · intro tags
    constructor
    · exact extractName_error_shape
    · rintro ⟨pre, t, post, rfl, hpre, ht⟩
      exact extractName_crash post hpre ht
  · intro suffix instances zone hsuf
    constructor
    · intro h
      obtain ⟨inst, hi, hx⟩ := run_panic_inv h
      obtain ⟨pre, t, post, heq, hpre, ht⟩ := extractName_error_shape hx
      exact ⟨inst, hi, pre, t, post, heq, hpre, ht⟩
    · rintro ⟨inst, hi, pre, t, post, heq, hpre, ht⟩
      refine run_panic_of_crash zone hsuf hi ?_
      rw [heq]
      exact extractName_crash post hpre ht

/-- C10 witness: a first tag with an absent key makes `run` panic, via the
backward direction of the iff. -/
theorem tag_deref_totality_amended_witness :
    run ".x.com" [nilKeyFirst] [] = .panic :=
  (tag_deref_totality_amended.2.2.1 ".x.com" [nilKeyFirst] [] (by decide)).mpr
    ⟨nilKeyFirst, by decide, [], ⟨none, some "x"⟩, [], by decide, by simp, by decide⟩

/-! ## Claim C2 -/

/-- C2: for every zone and instance snapshot, no DELETE change of the final
batch names `label ++ suffix` when `label` is the (valid) label of a
running, standard-lifecycle instance of the snapshot with a non-empty
public hostname or a non-empty public address. -/
theorem no_delete_for_live_instance (suffix : String) (instances : List Instance)
    (zone : List ResourceRecordSet) (inst : Instance) (label : String)
    (b : List Change)
    (hmem : inst ∈ instances)
    (_hstd : inst.instanceLifecycle = none)
    (hname : extractName inst.tags = .ok label)
    (hvalid : valid label = true)
    (hep : hasVal inst.publicDnsName = true ∨ hasVal inst.publicIpAddress = true)
    (hrun : run suffix instances zone = .batch b) :
    ∀ ch ∈ b, ¬(ch.action = "DELETE" ∧ ch.rrset.name = some (label ++ suffix)) := by
  obtain ⟨-, -, -, hb⟩ := run_batch_inv hrun
  obtain ⟨ch0, hch0⟩ := @instChange_isSome suffix label inst hep
  have hiu : instUpsert suffix inst = .ok (some ch0) := by
    simp [instUpsert, hname, hvalid, hch0]
  obtain ⟨-, hn0, -, -⟩ := instChange_shape hch0
  have hkey : (label ++ suffix) ∈ upsertKeys suffix instances :=
    upsertKeys_mem hmem hiu hn0
  subst hb
  intro ch hch hcontra
  obtain ⟨hact, hchn⟩ := hcontra
  rcases List.mem_append.mp hch with hch | hch
  · obtain ⟨ha, -, -⟩ := upsertChanges_full hch
    rw [ha] at hact
    exact absurd hact (by decide)
  · obtain ⟨rr, -, nm, t, -, -, -, -, -, hcheq, hnk⟩ := finalRemove_snd_shape hch
    rw [hcheq] at hchn
    simp only [Option.some.injEq] at hchn
    rw [hchn] at hnk
    exact hnk hkey

/-- C2 witness: the delete of the stale record does not target the live
instance's name. -/
theorem no_delete_for_live_instance_witness :
    ¬(oldDel.action = "DELETE" ∧ oldDel.rrset.name = some ("api" ++ ".x.com")) :=
  no_delete_for_live_instance ".x.com" [apiAddr] [staleRR] apiAddr "api"
    [apiUp, oldDel] (by decide) rfl (by decide) (by decide)
    (Or.inr (by decide)) (by decide) oldDel (by decide)

/-! ## Claim C3 -/

/-- C3 counterexample: two instances with the same label make `run` submit
two distinct changes bearing the same fully-qualified name — the later one
does not overwrite the earlier in the batch. -/
theorem duplicate_labels_two_changes_cex :
    run ".x.com" [webDns, webDns2] [] = .batch
      [⟨"UPSERT", ⟨some "web.x.com", some "CNAME", some 60,
          [⟨some "web.host.example"⟩]⟩⟩,
       ⟨"UPSERT", ⟨some "web.x.com", some "CNAME", some 60,
          [⟨some "other.host.example"⟩]⟩⟩] ∧
    (⟨"UPSERT", ⟨some "web.x.com", some "CNAME", some 60,
        [⟨some "web.host.example"⟩]⟩⟩ : Change) ≠
      ⟨"UPSERT", ⟨some "web.x.com", some "CNAME", some 60,
        [⟨some "other.host.example"⟩]⟩⟩ := by
  refine ⟨by decide, by decide⟩

/-- C3 (amended): in the submitted batch, no two DELETE changes share a
fully-qualified name, and no UPSERT shares a name with any DELETE (an UPSERT
supersedes any pending DELETE for its name); when the emitted UPSERT names
are pairwise distinct (no duplicate labels) the whole batch has at most one
change per name.  Two instances sharing a label, however, contribute two
retained UPSERT entries for the same name (no overwrite occurs). -/
theorem at_most_one_change_per_name_amended (suffix : String)
    (instances : List Instance) (zone : List ResourceRecordSet) (b : List Change)
    (hrun : run suffix instances zone = .batch b) :
    (b.filter (fun ch => decide (ch.action = "DELETE"))).Pairwise
        (fun c c' => c.rrset.name ≠ c'.rrset.name) ∧
    (∀ ch ∈ b, ∀ ch' ∈ b, ch.action = "UPSERT" → ch'.action = "DELETE" →
      ch.rrset.name ≠ ch'.rrset.name) ∧
    ((upsertKeys suffix instances).Nodup →
      b.Pairwise (fun c c' => c.rrset.name ≠ c'.rrset.name)) := by
  obtain ⟨-, -, -, hb⟩ := run_batch_inv hrun
  subst hb
  have hcross : ∀ ch ∈ upsertChanges suffix instances,
      ∀ ch' ∈ (finalRemove suffix instances zone).map Prod.snd,
      ch.rrset.name ≠ ch'.rrset.name := by
    intro ch hch ch' hch'
    obtain ⟨-, -, nm, hn, hk⟩ := upsertChanges_full hch
    obtain ⟨rr, -, nm', t, -, -, -, -, -, hcheq, hnk⟩ := finalRemove_snd_shape hch'
    rw [hn, hcheq]
    simp only [ne_eq, Option.some.injEq]
    intro he
    rw [← he] at hnk
    exact hnk hk
  refine ⟨?_, ?_, ?_⟩
  · rw [List.filter_append, upsertChanges_filter_del, finalRemove_filter_del]
    simpa using finalRemove_names_pairwise suffix instances zone
  · intro ch hch ch' hch' hu hd
    rcases List.mem_append.mp hch' with hch' | hch'
    · obtain ⟨ha', -, -⟩ := upsertChanges_full hch'
      rw [ha'] at hd
      exact absurd hd (by decide)
    · rcases List.mem_append.mp hch with hch | hch
      · exact hcross ch hch ch' hch'
      · obtain ⟨rr, -, nm, t, -, -, -, -, -, hcheq, -⟩ := finalRemove_snd_shape hch
        rw [hcheq] at hu
        simp at hu
  · intro hnd
    rw [List.pairwise_append]
    exact ⟨upsertChanges_pairwise hnd, finalRemove_names_pairwise suffix instances zone,
      fun a ha c hc => hcross a ha c hc⟩

/-- C3 witness: the UPSERT and the DELETE of a concrete batch have distinct
names. -/
theorem at_most_one_change_per_name_amended_witness :
    apiUp.rrset.name ≠ oldDel.rrset.name :=
  (at_most_one_change_per_name_amended ".x.com" [apiAddr] [staleRR]
      [apiUp, oldDel] (by decide)).2.1
    apiUp (by decide) oldDel (by decide) (by decide) (by decide)

/-! ## Claim C5 -/

/-- C5: for every instance of the snapshot with a valid label: a non-empty
public hostname yields a CNAME (ALIAS) UPSERT for `label ++ suffix`
targeting the hostname in the batch; otherwise a non-empty public address
yields an A (ADDRESS) UPSERT targeting the address; otherwise the instance
is skipped (no change, `toRemove` untouched, so its record remains a
deletion candidate); and every UPSERT of the batch has time-to-live 60. -/
theorem upsert_emission (suffix : String) (instances : List Instance)
    (zone : List ResourceRecordSet) (inst : Instance) (label : String)
    (b : List Change)
    (hrun : run suffix instances zone = .batch b)
    (hmem : inst ∈ instances)
    (hname : extractName inst.tags = .ok label)
    (hvalid : valid label = true) :
    (∀ h, inst.publicDnsName = some h → h ≠ "" →
      (⟨"UPSERT", ⟨some (label ++ suffix), some "CNAME", some 60,
        [⟨some h⟩]⟩⟩ : Change) ∈ b) ∧
    (∀ a, hasVal inst.publicDnsName = false → inst.publicIpAddress = some a →
      a ≠ "" →
      (⟨"UPSERT", ⟨some (label ++ suffix), some "A", some 60,
        [⟨some a⟩]⟩⟩ : Change) ∈ b) ∧
    (hasVal inst.publicDnsName = false → hasVal inst.publicIpAddress = false →
      instUpsert suffix inst = .ok none ∧
      ∀ (tl : List Instance) (m : List (String × Change)) (cs : List Change),
        processInstances suffix (inst :: tl) m cs =
          processInstances suffix tl m cs) ∧
    (∀ ch ∈ b, ch.action = "UPSERT" → ch.rrset.ttl = some 60) := by
  obtain ⟨-, -, -, hb⟩ := run_batch_inv hrun
  refine ⟨?_, ?_, ?_, ?_⟩
  · intro h hd hne
    have hhv : hasVal inst.publicDnsName = true := by simp [hasVal, hd, hne]
    have hch : instChange suffix label inst =
        some ⟨"UPSERT", ⟨some (label ++ suffix), some "CNAME", some 60,
          [⟨some h⟩]⟩⟩ := by
      unfold instChange
      rw [if_pos hhv, hd]
    have hiu : instUpsert suffix inst =
        .ok (some ⟨"UPSERT", ⟨some (label ++ suffix), some "CNAME", some 60,
          [⟨some h⟩]⟩⟩) := by
      simp [instUpsert, hname, hvalid, hch]
    rw [hb]
    exact List.mem_append_left _ (upsertChanges_mem hmem hiu)
  · intro a h1 ha hane
    have hhv : hasVal inst.publicIpAddress = true := by simp [hasVal, ha, hane]
    have hch : instChange suffix label inst =
        some ⟨"UPSERT", ⟨some (label ++ suffix), some "A", some 60,
          [⟨some a⟩]⟩⟩ := by
      unfold instChange
      rw [if_neg (by simp [h1]), if_pos hhv, ha]
    have hiu : instUpsert suffix inst =
        .ok (some ⟨"UPSERT", ⟨some (label ++ suffix), some "A", some 60,
          [⟨some a⟩]⟩⟩) := by
      simp [instUpsert, hname, hvalid, hch]
    rw [hb]
    exact List.mem_append_left _ (upsertChanges_mem hmem hiu)
  · intro h1 h2
    have hch : instChange suffix label inst = none := by
      unfold instChange
      rw [if_neg (by simp [h1]), if_neg (by simp [h2])]
    refine ⟨by simp [instUpsert, hname, hvalid, hch], ?_⟩
    intro tl m cs
    simp [processInstances, hname, hvalid, hch]
  · intro ch hch hact
    rw [hb] at hch
    rcases List.mem_append.mp hch with hch | hch
    · exact (upsertChanges_full hch).2.1
    · obtain ⟨rr, -, nm, t, -, -, -, -, -, hcheq, -⟩ := finalRemove_snd_shape hch
      rw [hcheq] at hact
      simp at hact

/-- C5 witness: the address-based A record of a concrete run. -/
theorem upsert_emission_witness :
    (⟨"UPSERT", ⟨some ("api" ++ ".x.com"), some "A", some 60,
      [⟨some "5.6.7.8"⟩]⟩⟩ : Change) ∈ [apiUp, oldDel] :=
  (upsert_emission ".x.com" [apiAddr] [staleRR] apiAddr "api" [apiUp, oldDel]
      (by decide) (by decide) (by decide) (by decide)).2.1
    "5.6.7.8" (by decide) (by decide) (by decide)

/-! ## Claim C8 -/

/-- C8: every DELETE of the final batch targets a zone record of kind A or
CNAME whose separator-terminated name is strictly longer than the
separator-terminated suffix and ends with it; and every change of the batch
(of either kind) names a record under the suffix (its name ends with the
suffix and is strictly longer). -/
theorem deletes_within_suffix (suffix : String) (instances : List Instance)
    (zone : List ResourceRecordSet) (b : List Change)
    (hrun : run suffix instances zone = .batch b) :
    (∀ ch ∈ b, ch.action = "DELETE" →
      ∃ rr ∈ zone, ∃ nm, rr.name = some nm ∧
        strEndsWith nm (suffix ++ ".") = true ∧ nm ≠ suffix ++ "." ∧
        (suffix ++ ".").data.length < nm.data.length ∧
        (rr.type = some "A" ∨ rr.type = some "CNAME") ∧
        ch.rrset.name = some (trimDot nm) ∧ ch.rrset.type = rr.type) ∧
    (∀ ch ∈ b, ∃ nm, ch.rrset.name = some nm ∧
      strEndsWith nm suffix = true ∧ suffix.data.length < nm.data.length) := by
  obtain ⟨-, herr, -, hb⟩ := run_batch_inv hrun
  subst hb
  constructor
  · intro ch hch hact
    rcases List.mem_append.mp hch with hch | hch
    · obtain ⟨ha, -, -⟩ := upsertChanges_full hch
      rw [ha] at hact
      exact absurd hact (by decide)
    · obtain ⟨rr, hrr, nm, t, h1, h2, h3, h4, h5, hcheq, -⟩ := finalRemove_snd_shape hch
      obtain ⟨y, -, -, -, -, hl1, -⟩ := proper_suffix_shape h4 h3
      refine ⟨rr, hrr, nm, h1, h4, h3, hl1, ?_, ?_, ?_⟩
      · rw [h2]
        rcases h5 with h5 | h5 <;> [left; right] <;> rw [h5]
      · rw [hcheq]
      · rw [hcheq, h2]
  · intro ch hch
    rcases List.mem_append.mp hch with hch | hch
    · obtain ⟨i, hi, hiu⟩ := upsertChanges_shape hch
      obtain ⟨name, -, hv, hc⟩ := instUpsert_some_shape hiu
      obtain ⟨-, hn, -, -⟩ := instChange_shape hc
      refine ⟨name ++ suffix, hn, ?_, ?_⟩
      · exact strEndsWith_iff.mpr ⟨name.data, rfl⟩
      · have hne : name.data ≠ [] := by
          intro h0
          exact valid_ne_empty hv (String.ext h0)
        have hpos : 0 < name.data.length := List.length_pos.mpr hne
        show suffix.data.length < (name ++ suffix).data.length
        rw [data_append]
        simp only [List.length_append]
        omega
    · obtain ⟨rr, hrr, nm, t, h1, h2, h3, h4, h5, hcheq, -⟩ := finalRemove_snd_shape hch
      obtain ⟨y, -, -, -, hsw, -, hl2⟩ := proper_suffix_shape h4 h3
      exact ⟨trimDot nm, by rw [hcheq], hsw, hl2⟩

/-- C8 witness: the concrete DELETE of a run targets the stale record under
the suffix. -/
theorem deletes_within_suffix_witness :
    ∃ rr ∈ [staleRR], ∃ nm, rr.name = some nm ∧
      strEndsWith nm (".x.com" ++ ".") = true ∧ nm ≠ ".x.com" ++ "." ∧
      (".x.com" ++ ".").data.length < nm.data.length ∧
      (rr.type = some "A" ∨ rr.type = some "CNAME") ∧
      oldDel.rrset.name = some (trimDot nm) ∧ oldDel.rrset.type = rr.type :=
  (deletes_within_suffix ".x.com" [apiAddr] [staleRR] [apiUp, oldDel]
      (by decide)).1 oldDel (by decide) (by decide)

/-! ## Lemmas for the zone-application model (used by claim C4) -/

theorem endsWithDot_iff {s : String} :
    strEndsWith s "." = true ↔ ∃ l, s.data = l ++ ['.'] := by
  rw [strEndsWith_iff, dot_data]
  constructor
  · rintro ⟨t, ht⟩; exact ⟨t, ht.symm⟩
  · rintro ⟨l, hl⟩; exact ⟨l, hl.symm⟩

theorem endsDot_of_append {a b l : List Char} (hb : b ≠ [])
    (h : a ++ b = l ++ ['.']) : ∃ l', b = l' ++ ['.'] := by
  rcases List.eq_nil_or_concat b with rfl | ⟨b', c, rfl⟩
  · exact absurd rfl hb
  · rw [List.concat_eq_append] at h
    have hc : c = '.' := by
      have h2 := congrArg List.getLast? h
      rw [← List.append_assoc] at h2
      rw [List.getLast?_concat, List.getLast?_concat] at h2
      exact Option.some.inj h2
    exact ⟨b', by rw [List.concat_eq_append, hc]⟩

theorem suffix_data_ne_nil {suffix : String}
    (h : strStartsWith suffix "." = true) : suffix.data ≠ [] := by
  rw [strStartsWith_iff, dot_data] at h
  intro h0
  rw [h0] at h
  simp at h

theorem noDot_of_data {s : String} {a : List Char} {sfx : String}
    (hs : s.data = a ++ sfx.data) (hsne : sfx.data ≠ [])
    (hdot : strEndsWith sfx "." = false) : strEndsWith s "." = false := by
  rw [Bool.eq_false_iff]
  intro hc
  obtain ⟨l, hl⟩ := endsWithDot_iff.mp hc
  rw [hs] at hl
  obtain ⟨l', hl'⟩ := endsDot_of_append hsne hl
  rw [Bool.eq_false_iff] at hdot
  exact hdot (endsWithDot_iff.mpr ⟨l', hl'⟩)

theorem fqdn_of_noDot {s : String} (h : strEndsWith s "." = false) :
    fqdn s = s ++ "." := by
  rw [fqdn, if_neg (by simp [h])]

theorem fqdn_inj_noDot {a b : String} (ha : strEndsWith a "." = false)
    (hb : strEndsWith b "." = false) (h : fqdn a = fqdn b) : a = b := by
  rw [fqdn_of_noDot ha, fqdn_of_noDot hb] at h
  have h2 : a.data ++ ['.'] = b.data ++ ['.'] := by
    have := congrArg String.data h
    rwa [data_append, data_append, dot_data] at this
  exact String.ext (List.append_cancel_right h2)

theorem fqdn_trimDot {sfx nm : String} (hsne : sfx.data ≠ [])
    (hdot : strEndsWith sfx "." = false)
    (hends : strEndsWith nm (sfx ++ ".") = true) :
    strEndsWith (trimDot nm) "." = false ∧ fqdn (trimDot nm) = nm := by
  obtain ⟨y, hy⟩ := endsWith_shape hends
  have htd : trimDot nm = ⟨y ++ sfx.data⟩ := trimDot_concat hy
  have hnd : strEndsWith (trimDot nm) "." = false := by
    rw [htd]
    exact noDot_of_data rfl hsne hdot
  refine ⟨hnd, ?_⟩
  rw [fqdn_of_noDot hnd]
  apply String.ext
  rw [data_append, dot_data, htd, hy]

theorem trimDot_fqdn {s : String} (h : strEndsWith s "." = false) :
    trimDot (fqdn s) = s := by
  rw [fqdn_of_noDot h]
  have h2 : (s ++ ".").data = s.data ++ ['.'] := by rw [data_append, dot_data]
  rw [trimDot_concat h2]

theorem matchesChange_iff {ch : Change} {rr : ResourceRecordSet} {nm ty : String}
    (hn : ch.rrset.name = some nm) (ht : ch.rrset.type = some ty) :
    matchesChange ch rr = true ↔ rr.name = some (fqdn nm) ∧ rr.type = some ty := by
  simp [matchesChange, hn, ht]

theorem matchesChange_none {ch : Change} {rr : ResourceRecordSet}
    (h : ch.rrset.name = none ∨ ch.rrset.type = none) :
    matchesChange ch rr = false := by
  unfold matchesChange
  rcases h with h | h
  · rw [h]
  · cases hn : ch.rrset.name with
    | none => rfl
    | some nm => rw [h]

theorem written_name {ch : Change} {nm : String} (hn : ch.rrset.name = some nm) :
    (written ch).name = some (fqdn nm) := by
  simp [written, hn]

theorem written_matches {ch : Change} {nm ty : String}
    (hn : ch.rrset.name = some nm) (ht : ch.rrset.type = some ty) :
    matchesChange ch (written ch) = true :=
  (matchesChange_iff hn ht).mpr ⟨written_name hn, ht⟩

theorem applyChange_delete_eq {z : List ResourceRecordSet} {d : Change}
    {kd td : String} (hda : d.action = "DELETE") (hdn : d.rrset.name = some kd)
    (hdt : d.rrset.type = some td) :
    applyChange z d = z.filter (fun rr => !matchesChange d rr) := by
  unfold applyChange
  rw [hdn, hdt]
  simp only []
  rw [if_neg (by rw [hda]; decide), if_pos hda]

theorem applyChange_upsert_eq {z : List ResourceRecordSet} {u : Change}
    {nu tu : String} (hua : u.action = "UPSERT") (hun : u.rrset.name = some nu)
    (hut : u.rrset.type = some tu) :
    applyChange z u =
      if z.any (matchesChange u) then
        z.map (fun rr => if matchesChange u rr then written u else rr)
      else z ++ [written u] := by
  unfold applyChange
  rw [hun, hut]
  simp only []
  rw [if_pos hua]

theorem applyChange_mem {z : List ResourceRecordSet} {ch : Change}
    {rr' : ResourceRecordSet} (h : rr' ∈ applyChange z ch) :
    (ch.action = "UPSERT" ∧ rr' = written ch) ∨
      (rr' ∈ z ∧ (ch.action = "DELETE" → matchesChange ch rr' = false)) := by
  unfold applyChange at h
  cases hn : ch.rrset.name with
  | none =>
    rw [hn] at h
    exact Or.inr ⟨h, fun _ => matchesChange_none (Or.inl hn)⟩
  | some nm =>
    cases ht : ch.rrset.type with
    | none =>
      rw [hn, ht] at h
      exact Or.inr ⟨h, fun _ => matchesChange_none (Or.inr ht)⟩
    | some ty =>
      rw [hn, ht] at h
      simp only [] at h
      split_ifs at h with hu hx hd
      · rcases List.mem_map.mp h with ⟨x, hx', hfx⟩
        by_cases hm : matchesChange ch x = true
        · rw [if_pos hm] at hfx
          exact Or.inl ⟨hu, hfx.symm⟩
        · rw [if_neg hm] at hfx
          refine Or.inr ⟨hfx ▸ hx', fun hdel => ?_⟩
          rw [hu] at hdel
          exact absurd hdel (by decide)
      · rcases List.mem_append.mp h with h | h
        · refine Or.inr ⟨h, fun hdel => ?_⟩
          rw [hu] at hdel
          exact absurd hdel (by decide)
        · simp only [List.mem_singleton] at h
          exact Or.inl ⟨hu, h⟩
      · have h2 := List.mem_filter.mp h
        exact Or.inr ⟨h2.1, fun _ => by simpa using h2.2⟩
      · exact Or.inr ⟨h, fun hdel => absurd hdel hd⟩

theorem applyBatch_cons (z : List ResourceRecordSet) (c : Change) (cs : List Change) :
    applyBatch z (c :: cs) = applyBatch (applyChange z c) cs := rfl

theorem applyBatch_append (z : List ResourceRecordSet) (l1 l2 : List Change) :
    applyBatch z (l1 ++ l2) = applyBatch (applyBatch z l1) l2 :=
  List.foldl_append _ _ _ _

theorem applyBatch_mem {chs : List Change} :
    ∀ {z : List ResourceRecordSet} {rr' : ResourceRecordSet},
      rr' ∈ applyBatch z chs →
      (∃ ch ∈ chs, ch.action = "UPSERT" ∧ rr' = written ch) ∨
        (rr' ∈ z ∧ ∀ ch ∈ chs, ch.action = "DELETE" → matchesChange ch rr' = false) := by
  induction chs with
  | nil =>
    intro z rr' h
    right
    exact ⟨h, by simp⟩
  | cons c cs ih =>
    intro z rr' h
    rw [applyBatch_cons] at h
    rcases ih h with ⟨ch, hch, hu, he⟩ | ⟨hmem, hsurv⟩
    · exact Or.inl ⟨ch, List.mem_cons_of_mem _ hch, hu, he⟩
    · rcases applyChange_mem hmem with ⟨hu, he⟩ | ⟨hmem', hflag⟩
      · exact Or.inl ⟨c, List.mem_cons_self _ _, hu, he⟩
      · refine Or.inr ⟨hmem', fun ch hch hdel => ?_⟩
        rcases List.mem_cons.mp hch with rfl | hch'
        · exact hflag hdel
        · exact hsurv ch hch' hdel

theorem delete_no_match {d u : Change} {kd td nu tu : String}
    (hdn : d.rrset.name = some kd) (hdt : d.rrset.type = some td)
    (hun : u.rrset.name = some nu) (hut : u.rrset.type = some tu)
    (hne : fqdn kd ≠ fqdn nu) :
    ∀ rr, matchesChange u rr = true → matchesChange d rr = false := by
  intro rr hm
  rw [matchesChange_iff hun hut] at hm
  rw [Bool.eq_false_iff]
  intro hm2
  rw [matchesChange_iff hdn hdt] at hm2
  rw [hm2.1] at hm
  exact hne (Option.some.inj hm.1)

theorem applyChange_comm {z : List ResourceRecordSet} {d u : Change}
    {kd td nu tu : String}
    (hda : d.action = "DELETE") (hdn : d.rrset.name = some kd)
    (hdt : d.rrset.type = some td)
    (hua : u.action = "UPSERT") (hun : u.rrset.name = some nu)
    (hut : u.rrset.type = some tu)
    (hne : fqdn kd ≠ fqdn nu) :
    applyChange (applyChange z d) u = applyChange (applyChange z u) d := by
  have hdm : ∀ rr, matchesChange u rr = true → matchesChange d rr = false :=
    delete_no_match hdn hdt hun hut hne
  have hwm : matchesChange d (written u) = false := hdm _ (written_matches hun hut)
  rw [applyChange_delete_eq hda hdn hdt, applyChange_upsert_eq hua hun hut,
      applyChange_upsert_eq hua hun hut, applyChange_delete_eq hda hdn hdt]
  have hany : (z.filter (fun rr => !matchesChange d rr)).any (matchesChange u) =
      z.any (matchesChange u) := by
    apply (by decide : ∀ (x y : Bool), (x = true ↔ y = true) → x = y)
    rw [List.any_eq_true, List.any_eq_true]
    constructor
    · rintro ⟨x, hx, hm⟩
      exact ⟨x, (List.mem_filter.mp hx).1, hm⟩
    · rintro ⟨x, hx, hm⟩
      exact ⟨x, List.mem_filter.mpr ⟨hx, by simp [hdm x hm]⟩, hm⟩
  rw [hany]
  by_cases hz : z.any (matchesChange u) = true
  · rw [if_pos hz, if_pos hz, List.filter_map]
    congr 1
    apply List.filter_congr
    intro x _
    simp only [Function.comp]
    by_cases hm : matchesChange u x = true
    · rw [if_pos hm]
      simp [hdm x hm, hwm]
    · rw [if_neg hm]
  · rw [if_neg hz, if_neg hz, List.filter_append]
    congr 1
    simp [List.filter_cons, hwm]

theorem applyBatch_ups_delete_comm {d : Change} {kd td : String}
    (hda : d.action = "DELETE") (hdn : d.rrset.name = some kd)
    (hdt : d.rrset.type = some td)
    {ups : List Change}
    (hu : ∀ u ∈ ups, u.action = "UPSERT" ∧ ∃ nu tu, u.rrset.name = some nu ∧
      u.rrset.type = some tu ∧ fqdn kd ≠ fqdn nu) :
    ∀ z, applyBatch (applyChange z d) ups = applyChange (applyBatch z ups) d := by
  induction ups with
  | nil => intro z; rfl
  | cons u us ih =>
    intro z
    obtain ⟨hua, nu, tu, hun, hut, hne⟩ := hu u (List.mem_cons_self _ _)
    rw [applyBatch_cons, applyChange_comm hda hdn hdt hua hun hut hne,
      applyBatch_cons]
    exact ih (fun u' hu' => hu u' (List.mem_cons_of_mem _ hu')) (applyChange z u)

theorem applyBatch_comm {dels ups : List Change}
    (hd : ∀ d ∈ dels, d.action = "DELETE" ∧
      ∃ kd td, d.rrset.name = some kd ∧ d.rrset.type = some td)
    (hu : ∀ u ∈ ups, u.action = "UPSERT" ∧
      ∃ nu tu, u.rrset.name = some nu ∧ u.rrset.type = some tu)
    (hne : ∀ d ∈ dels, ∀ u ∈ ups, ∀ kd nu, d.rrset.name = some kd →
      u.rrset.name = some nu → fqdn kd ≠ fqdn nu) :
    ∀ W, applyBatch (applyBatch W dels) ups = applyBatch (applyBatch W ups) dels := by
  induction dels with
  | nil => intro W; rfl
  | cons d ds ih =>
    intro W
    obtain ⟨hda, kd, td, hdn, hdt⟩ := hd d (List.mem_cons_self _ _)
    have hcomb : ∀ u ∈ ups, u.action = "UPSERT" ∧ ∃ nu tu, u.rrset.name = some nu ∧
        u.rrset.type = some tu ∧ fqdn kd ≠ fqdn nu := by
      intro u hu'
      obtain ⟨hua, nu, tu, hun, hut⟩ := hu u hu'
      exact ⟨hua, nu, tu, hun, hut,
        hne d (List.mem_cons_self _ _) u hu' kd nu hdn hun⟩
    rw [applyBatch_cons W d ds,
      ih (fun d' hd' => hd d' (List.mem_cons_of_mem _ hd'))
        (fun d' hd' u hu' kd' nu hdn' hun =>
          hne d' (List.mem_cons_of_mem _ hd') u hu' kd' nu hdn' hun)
        (applyChange W d),
      applyBatch_ups_delete_comm hda hdn hdt hcomb W,
      applyBatch_cons (applyBatch W ups) d ds]

theorem applyChange_id {z : List ResourceRecordSet} {ch : Change} {nm ty : String}
    (hua : ch.action = "UPSERT") (hn : ch.rrset.name = some nm)
    (ht : ch.rrset.type = some ty)
    (hex : ∃ rr ∈ z, matchesChange ch rr = true)
    (hall : ∀ rr ∈ z, matchesChange ch rr = true → rr = written ch) :
    applyChange z ch = z := by
  rw [applyChange_upsert_eq hua hn ht, if_pos (List.any_eq_true.mpr hex)]
  have hid : ∀ rr ∈ z, (if matchesChange ch rr then written ch else rr) = id rr := by
    intro rr hrr
    split_ifs with hm
    · exact (hall rr hrr hm).symm
    · rfl
  rw [List.map_congr_left hid, List.map_id]

theorem matchStep_all {c u : Change} {nc tc nu : String}
    (hcn : c.rrset.name = some nc) (hct : c.rrset.type = some tc)
    (hun : u.rrset.name = some nu) (hne : fqdn nu ≠ fqdn nc)
    {z : List ResourceRecordSet}
    (hallz : ∀ rr ∈ z, matchesChange c rr = true → rr = written c) :
    ∀ rr ∈ applyChange z u, matchesChange c rr = true → rr = written c := by
  intro rr hrr hm
  rcases applyChange_mem hrr with ⟨-, rfl⟩ | ⟨hrz, -⟩
  · exfalso
    rw [matchesChange_iff hcn hct] at hm
    have h2 : (written u).name = some (fqdn nu) := written_name hun
    rw [h2] at hm
    exact hne (Option.some.inj hm.1)
  · exact hallz rr hrz hm

theorem matchStep_ex {c u : Change} {nc tc nu tu : String}
    (hcn : c.rrset.name = some nc) (hct : c.rrset.type = some tc)
    (hua : u.action = "UPSERT") (hun : u.rrset.name = some nu)
    (hut : u.rrset.type = some tu) (hne : fqdn nu ≠ fqdn nc)
    {z : List ResourceRecordSet}
    (hexz : ∃ rr ∈ z, matchesChange c rr = true) :
    ∃ rr ∈ applyChange z u, matchesChange c rr = true := by
  obtain ⟨x, hx, hm⟩ := hexz
  have hxu : matchesChange u x = false := by
    rw [Bool.eq_false_iff]
    intro hmu
    rw [matchesChange_iff hcn hct] at hm
    rw [matchesChange_iff hun hut] at hmu
    rw [hmu.1] at hm
    exact hne (Option.some.inj hm.1)
  rw [applyChange_upsert_eq hua hun hut]
  split_ifs with hz
  · exact ⟨x, List.mem_map.mpr ⟨x, hx, by rw [if_neg (by simp [hxu])]⟩, hm⟩
  · exact ⟨x, List.mem_append_left _ hx, hm⟩

theorem matchBatch_preserved {c : Change} {nc tc : String}
    (hcn : c.rrset.name = some nc) (hct : c.rrset.type = some tc)
    {chs : List Change}
    (hother : ∀ u ∈ chs, u.action = "UPSERT" ∧ ∃ nu tu, u.rrset.name = some nu ∧
      u.rrset.type = some tu ∧ fqdn nu ≠ fqdn nc) :
    ∀ z : List ResourceRecordSet,
      (∀ rr ∈ z, matchesChange c rr = true → rr = written c) →
      (∃ rr ∈ z, matchesChange c rr = true) →
      (∀ rr ∈ applyBatch z chs, matchesChange c rr = true → rr = written c) ∧
        (∃ rr ∈ applyBatch z chs, matchesChange c rr = true) := by
  induction chs with
  | nil => intro z hall hex; exact ⟨hall, hex⟩
  | cons u us ih =>
    intro z hall hex
    obtain ⟨hua, nu, tu, hun, hut, hne⟩ := hother u (List.mem_cons_self _ _)
    rw [applyBatch_cons]
    exact ih (fun u' hu' => hother u' (List.mem_cons_of_mem _ hu'))
      (applyChange z u)
      (matchStep_all hcn hct hun hne hall)
      (matchStep_ex hcn hct hua hun hut hne hex)

theorem applyBatch_saturates {ups : List Change}
    (hshape : ∀ u ∈ ups, u.action = "UPSERT" ∧
      ∃ nu tu, u.rrset.name = some nu ∧ u.rrset.type = some tu)
    (hdist : ups.Pairwise
      (fun a b => a.rrset.name.map fqdn ≠ b.rrset.name.map fqdn)) :
    ∀ z, ∀ c ∈ ups,
      (∃ rr ∈ applyBatch z ups, matchesChange c rr = true) ∧
      (∀ rr ∈ applyBatch z ups, matchesChange c rr = true → rr = written c) := by
  induction ups with
  | nil => intro z c hc; cases hc
  | cons u us ih =>
    intro z c hc
    obtain ⟨hua, nu, tu, hun, hut⟩ := hshape u (List.mem_cons_self _ _)
    rw [List.pairwise_cons] at hdist
    rcases List.mem_cons.mp hc with rfl | hc'
    · have base_all : ∀ rr ∈ applyChange z c,
          matchesChange c rr = true → rr = written c := by
        rw [applyChange_upsert_eq hua hun hut]
        split_ifs with hz
        · intro rr hrr hm
          rcases List.mem_map.mp hrr with ⟨x, hx, hfx⟩
          by_cases hmx : matchesChange c x = true
          · rw [if_pos hmx] at hfx; exact hfx.symm
          · rw [if_neg hmx] at hfx
            rw [← hfx] at hm
            exact absurd hm hmx
        · intro rr hrr hm
          rcases List.mem_append.mp hrr with hrz | hrw
          · exact absurd (List.any_eq_true.mpr ⟨rr, hrz, hm⟩) hz
          · simpa using hrw
      have base_ex : ∃ rr ∈ applyChange z c, matchesChange c rr = true := by
        rw [applyChange_upsert_eq hua hun hut]
        split_ifs with hz
        · obtain ⟨x, hx, hm⟩ := List.any_eq_true.mp hz
          exact ⟨written c, List.mem_map.mpr ⟨x, hx, by rw [if_pos hm]⟩,
            written_matches hun hut⟩
        · exact ⟨written c, List.mem_append_right _ (by simp),
            written_matches hun hut⟩
      have hother : ∀ u' ∈ us, u'.action = "UPSERT" ∧
          ∃ nu' tu', u'.rrset.name = some nu' ∧ u'.rrset.type = some tu' ∧
            fqdn nu' ≠ fqdn nu := by
        intro u' hu'
        obtain ⟨hua', nu', tu', hun', hut'⟩ :=
          hshape u' (List.mem_cons_of_mem _ hu')
        refine ⟨hua', nu', tu', hun', hut', ?_⟩
        intro he
        apply hdist.1 u' hu'
        rw [hun, hun']
        simp [he]
      have := matchBatch_preserved hun hut hother (applyChange z c)
        base_all base_ex
      rw [applyBatch_cons]
      exact ⟨this.2, this.1⟩
    · rw [applyBatch_cons]
      exact ih (fun u' hu' => hshape u' (List.mem_cons_of_mem _ hu'))
        hdist.2 (applyChange z u) c hc'

theorem applyBatch_of_id {ups : List Change} :
    ∀ W, (∀ ch ∈ ups, applyChange W ch = W) → applyBatch W ups = W := by
  induction ups with
  | nil => intro W _; rfl
  | cons c cs ih =>
    intro W h
    rw [applyBatch_cons, h c (List.mem_cons_self _ _)]
    exact ih W (fun ch hch => h ch (List.mem_cons_of_mem _ hch))

theorem applyBatch_idem {ups : List Change}
    (hshape : ∀ u ∈ ups, u.action = "UPSERT" ∧
      ∃ nu tu, u.rrset.name = some nu ∧ u.rrset.type = some tu)
    (hdist : ups.Pairwise
      (fun a b => a.rrset.name.map fqdn ≠ b.rrset.name.map fqdn))
    (z : List ResourceRecordSet) :
    applyBatch (applyBatch z ups) ups = applyBatch z ups := by
  apply applyBatch_of_id
  intro ch hch
  obtain ⟨hua, nc, tc, hn, ht⟩ := hshape ch hch
  obtain ⟨hex, hall⟩ := applyBatch_saturates hshape hdist z ch hch
  exact applyChange_id hua hn ht hex hall

theorem ups_elem_shape {suffix : String} {l : List Instance} {ch : Change}
    (h : ch ∈ upsertChanges suffix l) :
    ch.action = "UPSERT" ∧ ∃ label, valid label = true ∧
      ch.rrset.name = some (label ++ suffix) ∧ ∃ ty, ch.rrset.type = some ty := by
  obtain ⟨i, hi, hiu⟩ := upsertChanges_shape h
  obtain ⟨name, -, hv, hc⟩ := instUpsert_some_shape hiu
  obtain ⟨ha, hn, -, hty⟩ := instChange_shape hc
  refine ⟨ha, name, hv, hn, ?_⟩
  rcases hty with h' | h'
  · exact ⟨"CNAME", h'⟩
  · exact ⟨"A", h'⟩

theorem upsertKeys_shape {suffix : String} {l : List Instance} {k : String}
    (h : k ∈ upsertKeys suffix l) :
    ∃ label, valid label = true ∧ k = label ++ suffix := by
  obtain ⟨i, hi, hf⟩ := List.mem_filterMap.mp h
  cases hiu : instUpsert suffix i with
  | error e => rw [hiu] at hf; cases hf
  | ok o =>
    cases o with
    | none => rw [hiu] at hf; cases hf
    | some ch =>
      rw [hiu] at hf
      have hf2 : ch.rrset.name = some k := hf
      obtain ⟨name, -, hv, hc⟩ := instUpsert_some_shape hiu
      obtain ⟨-, hn, -, -⟩ := instChange_shape hc
      rw [hn] at hf2
      exact ⟨name, hv, (Option.some.inj hf2).symm⟩

theorem upsKey_noDot {suffix k : String} {l : List Instance}
    (hsne : suffix.data ≠ []) (hdot : strEndsWith suffix "." = false)
    (h : k ∈ upsertKeys suffix l) : strEndsWith k "." = false := by
  obtain ⟨label, -, rfl⟩ := upsertKeys_shape h
  exact noDot_of_data (data_append label suffix) hsne hdot

theorem dels_shape {suffix : String} {l : List Instance}
    {zone : List ResourceRecordSet} {ch : Change}
    (hsne : suffix.data ≠ []) (hdot : strEndsWith suffix "." = false)
    (h : ch ∈ (finalRemove suffix l zone).map Prod.snd) :
    ch.action = "DELETE" ∧ ∃ k t, ch.rrset.name = some k ∧
      ch.rrset.type = some t ∧ strEndsWith k "." = false ∧
      k ∉ upsertKeys suffix l := by
  obtain ⟨rr, -, nm, t, -, -, -, h4, -, hcheq, hnk⟩ := finalRemove_snd_shape h
  subst hcheq
  exact ⟨rfl, trimDot nm, t, rfl, rfl, (fqdn_trimDot hsne hdot h4).1, hnk⟩

theorem cross_fqdn_ne {suffix : String} {l : List Instance} {kd nu : String}
    (hsne : suffix.data ≠ []) (hdot : strEndsWith suffix "." = false)
    (hkd : strEndsWith kd "." = false) (hnotin : kd ∉ upsertKeys suffix l)
    (hnu : nu ∈ upsertKeys suffix l) : fqdn kd ≠ fqdn nu := by
  intro he
  have h2 := fqdn_inj_noDot hkd (upsKey_noDot hsne hdot hnu) he
  rw [← h2] at hnu
  exact hnotin hnu

/-- After applying the batch of a successful run, every candidate delete of
the resulting zone is named by some emitted UPSERT: the second run's
`toRemove` empties out. -/
theorem buildToRemove_zone2 {suffix : String} {instances : List Instance}
    {zone : List ResourceRecordSet}
    (hsne : suffix.data ≠ []) (hdot : strEndsWith suffix "." = false)
    (hcand : ∀ rr ∈ zone, ∀ rr' ∈ zone,
      (deleteCandidate suffix rr).isSome = true →
      (deleteCandidate suffix rr).map Prod.fst =
        (deleteCandidate suffix rr').map Prod.fst → rr = rr') :
    ∀ p ∈ buildToRemove suffix
        (applyBatch zone (upsertChanges suffix instances ++
          (finalRemove suffix instances zone).map Prod.snd)),
      p.1 ∈ upsertKeys suffix instances := by
  intro p hp
  obtain ⟨k, v⟩ := p
  obtain ⟨rr2, hrr2, hdc2⟩ := buildToRemove_mem hp
  obtain ⟨nm2, t2, hn2, ht2, hne2, hends2, -, hkeq2, hveq2⟩ := deleteCandidate_inv hdc2
  subst hkeq2
  show trimDot nm2 ∈ upsertKeys suffix instances
  rcases applyBatch_mem hrr2 with ⟨ch, hch, hu, hwr⟩ | ⟨hmem, hsurv⟩
  · rcases List.mem_append.mp hch with hch | hch
    · obtain ⟨-, label, -, hn, -⟩ := ups_elem_shape hch
      obtain ⟨-, -, nmu, hnu, hknu⟩ := upsertChanges_full hch
      rw [hn] at hnu
      have hnmu : nmu = label ++ suffix := (Option.some.inj hnu).symm
      subst hnmu
      have hw : rr2.name = some (fqdn (label ++ suffix)) := by
        rw [hwr]
        exact written_name hn
      rw [hw] at hn2
      have : nm2 = fqdn (label ++ suffix) := (Option.some.inj hn2).symm
      subst this
      have hnod : strEndsWith (label ++ suffix) "." = false :=
        noDot_of_data (data_append label suffix) hsne hdot
      rw [trimDot_fqdn hnod]
      exact hknu
    · obtain ⟨rr', -, nm', t', -, -, -, -, -, hcheq, -⟩ := finalRemove_snd_shape hch
      rw [hcheq] at hu
      simp at hu
  · by_contra hnot
    have hkmem : trimDot nm2 ∈ (buildToRemove suffix zone).map Prod.fst :=
      buildToRemove_key_complete hmem hdc2
    obtain ⟨q, hq, hq1⟩ := List.mem_map.mp hkmem
    obtain ⟨k', v'⟩ := q
    have hk' : k' = trimDot nm2 := hq1
    subst hk'
    obtain ⟨rr'', hrr'', hdc''⟩ := buildToRemove_mem hq
    have heq : rr2 = rr'' := by
      apply hcand rr2 hmem rr'' hrr''
      · rw [hdc2]; rfl
      · rw [hdc2, hdc'']
        rfl
    rw [← heq] at hdc''
    rw [hdc2] at hdc''
    have hv' : v' = v := by
      have h3 := Option.some.inj hdc''
      exact (congrArg Prod.snd h3).symm
    subst hv'
    have hfr : (trimDot nm2, v') ∈ finalRemove suffix instances zone := by
      unfold finalRemove
      exact List.mem_filter.mpr ⟨hq, by simpa using hnot⟩
    have hvdel : v' ∈ (finalRemove suffix instances zone).map Prod.snd :=
      List.mem_map.mpr ⟨(trimDot nm2, v'), hfr, rfl⟩
    have hva : v'.action = "DELETE" := by rw [hveq2]
    have hmatch : matchesChange v' rr2 = true := by
      have hvn : v'.rrset.name = some (trimDot nm2) := by rw [hveq2]
      have hvt : v'.rrset.type = some t2 := by rw [hveq2]
      rw [matchesChange_iff hvn hvt]
      refine ⟨?_, ht2⟩
      rw [(fqdn_trimDot hsne hdot hends2).2]
      exact hn2
    have hfalse := hsurv v' (List.mem_append_right _ hvdel) hva
    rw [hmatch] at hfalse
    cases hfalse

/-! ## Claim C4 -/

/-- C4 counterexample: with a stale record in the zone, the first run's
batch contains a DELETE, so the two successive runs do not both produce a
batch "consisting only of UPSERTs, no deletions", nor equal batches: the
second run (on the reconciled zone) produces only the UPSERT. -/
theorem idempotence_cex :
    run ".x.com" [apiAddr] [staleRR] = .batch [apiUp, oldDel] ∧
    oldDel ∈ [apiUp, oldDel] ∧ oldDel.action = "DELETE" ∧
    run ".x.com" [apiAddr] (applyBatch [staleRR] [apiUp, oldDel]) =
      .batch [apiUp] ∧
    ([apiUp] : List Change) ≠ [apiUp, oldDel] := by
  refine ⟨by decide, by decide, by decide, by decide, by decide⟩

/-- C4 (amended): for a suffix not ending in the separator, when the
deletion-candidate records of the zone have pairwise-distinct keys and the
emitted UPSERT names are pairwise distinct, a successful run followed by
applying its batch reaches a reconciled zone: running again produces a
batch consisting only of UPSERTs — exactly the UPSERT portion of the first
batch — and applying that second batch changes nothing (applying twice
leaves the zone in the same final state as applying once). -/
theorem idempotence_amended (suffix : String) (instances : List Instance)
    (zone : List ResourceRecordSet) (b : List Change)
    (hrun : run suffix instances zone = .batch b)
    (hdot : strEndsWith suffix "." = false)
    (hkeys : (upsertKeys suffix instances).Nodup)
    (hcand : ∀ rr ∈ zone, ∀ rr' ∈ zone,
      (deleteCandidate suffix rr).isSome = true →
      (deleteCandidate suffix rr).map Prod.fst =
        (deleteCandidate suffix rr').map Prod.fst → rr = rr') :
    run suffix instances (applyBatch zone b) =
      .batch (upsertChanges suffix instances) ∧
    (∀ ch ∈ upsertChanges suffix instances, ch.action = "UPSERT") ∧
    upsertChanges suffix instances =
      b.filter (fun ch => decide (ch.action = "UPSERT")) ∧
    applyBatch (applyBatch zone b) (upsertChanges suffix instances) =
      applyBatch zone b := by
  obtain ⟨hsuf, herr, hne, hb⟩ := run_batch_inv hrun
  have hstart : strStartsWith suffix "." = true :=
    not_not.mp (not_or.mp hsuf).2
  have hsne : suffix.data ≠ [] := suffix_data_ne_nil hstart
  subst hb
  have hupss : ∀ u ∈ upsertChanges suffix instances, u.action = "UPSERT" ∧
      ∃ nu tu, u.rrset.name = some nu ∧ u.rrset.type = some tu := by
    intro u hu
    obtain ⟨ha, label, -, hn, ty, ht⟩ := ups_elem_shape hu
    exact ⟨ha, label ++ suffix, ty, hn, ht⟩
  have hdelss : ∀ d ∈ (finalRemove suffix instances zone).map Prod.snd,
      d.action = "DELETE" ∧
      ∃ kd td, d.rrset.name = some kd ∧ d.rrset.type = some td := by
    intro d hd
    obtain ⟨ha, kd, td, hdn, hdt, -, -⟩ := dels_shape hsne hdot hd
    exact ⟨ha, kd, td, hdn, hdt⟩
  have hnepair : ∀ d ∈ (finalRemove suffix instances zone).map Prod.snd,
      ∀ u ∈ upsertChanges suffix instances, ∀ kd nu,
      d.rrset.name = some kd → u.rrset.name = some nu →
      fqdn kd ≠ fqdn nu := by
    intro d hd u hu kd nu hdn hun
    obtain ⟨-, kd', td, hdn', -, hkdnod, hnotin⟩ := dels_shape hsne hdot hd
    rw [hdn] at hdn'
    have : kd' = kd := (Option.some.inj hdn').symm
    subst this
    obtain ⟨-, -, nmu, hnu', hknu⟩ := upsertChanges_full hu
    rw [hun] at hnu'
    have : nmu = nu := Option.some.inj hnu'.symm
    subst this
    exact cross_fqdn_ne hsne hdot hkdnod hnotin hknu
  have hdist : (upsertChanges suffix instances).Pairwise
      (fun a b => a.rrset.name.map fqdn ≠ b.rrset.name.map fqdn) := by
    refine (upsertChanges_pairwise hkeys).imp_of_mem ?_
    intro a c ha hc hne'
    obtain ⟨-, -, na, hna, hka⟩ := upsertChanges_full ha
    obtain ⟨-, -, nc, hnc, hkc⟩ := upsertChanges_full hc
    rw [hna, hnc]
    simp only [Option.map_some', ne_eq, Option.some.injEq]
    intro he
    have h2 := fqdn_inj_noDot (upsKey_noDot hsne hdot hka)
      (upsKey_noDot hsne hdot hkc) he
    apply hne'
    rw [hna, hnc, h2]
  refine ⟨?_, ?_, ?_, ?_⟩
  · have hfr2 : finalRemove suffix instances
        (applyBatch zone (upsertChanges suffix instances ++
          (finalRemove suffix instances zone).map Prod.snd)) = [] := by
      unfold finalRemove
      rw [List.filter_eq_nil_iff]
      intro p hp
      simpa using buildToRemove_zone2 hsne hdot hcand p hp
    rw [run_eq _ hsuf herr, if_neg hne, hfr2]
    simp
  · exact fun ch hch => (upsertChanges_full hch).1
  · rw [List.filter_append]
    rw [List.filter_eq_self.mpr (fun ch hch => by simp [(upsertChanges_full hch).1])]
    rw [List.filter_eq_nil_iff.mpr (fun ch hch => by
      obtain ⟨ha, -, -, -, -⟩ := dels_shape hsne hdot hch
      simp [ha])]
    simp
  · calc applyBatch (applyBatch zone (upsertChanges suffix instances ++
          (finalRemove suffix instances zone).map Prod.snd))
          (upsertChanges suffix instances)
        = applyBatch (applyBatch (applyBatch zone (upsertChanges suffix instances))
            ((finalRemove suffix instances zone).map Prod.snd))
            (upsertChanges suffix instances) := by
          rw [applyBatch_append]
      _ = applyBatch (applyBatch (applyBatch zone (upsertChanges suffix instances))
            (upsertChanges suffix instances))
            ((finalRemove suffix instances zone).map Prod.snd) :=
          applyBatch_comm hdelss hupss hnepair _
      _ = applyBatch (applyBatch zone (upsertChanges suffix instances))
            ((finalRemove suffix instances zone).map Prod.snd) := by
          rw [applyBatch_idem hupss hdist]
      _ = applyBatch zone (upsertChanges suffix instances ++
            (finalRemove suffix instances zone).map Prod.snd) := by
          rw [applyBatch_append]

/-- C4 witness: on the concrete scenario, the second run returns exactly
the UPSERT portion. -/
theorem idempotence_amended_witness :
    run ".x.com" [apiAddr] (applyBatch [staleRR] [apiUp, oldDel]) =
      .batch (upsertChanges ".x.com" [apiAddr]) :=
  (idempotence_amended ".x.com" [apiAddr] [staleRR] [apiUp, oldDel]
    (by decide) (by decide) (by decide) (by decide)).1

end Awsns
